import Mathlib

/-!
# TicTacToe (`src/main.cpp`): board classifier and minimax search

A shallow embedding of the game core of `main.cpp`.  The global
`Piece board[9]` becomes an explicit state that every routine receives and
returns; array accesses are bounds-checked and the recursion of `minmax`
is driven by a depth budget, so that a run either yields a value or one of
the two faults below.
-/

namespace TicTacToe

/-! ## The program -/

/-- The enumeration `enum Piece { X, O, Empty }`. -/
inductive Piece where
  | X
  | O
  | Empty
  deriving DecidableEq

/-- The enumeration `enum WinState { XWin, OWin, Draw, NotFinished }`. -/
inductive WinState where
  | XWin
  | OWin
  | Draw
  | NotFinished
  deriving DecidableEq

/-- What can go wrong in a run: an array access outside its bounds, or a
recursion deeper than the depth budget. -/
inductive Fault where
  | outOfRange
  | outOfFuel
  deriving DecidableEq

/-- The global `Piece board[9]`: nine cells, row-major. -/
structure Board where
  c0 : Piece
  c1 : Piece
  c2 : Piece
  c3 : Piece
  c4 : Piece
  c5 : Piece
  c6 : Piece
  c7 : Piece
  c8 : Piece
  deriving DecidableEq

/-- The cell of a board at an index in range. -/
def Board.get (b : Board) (i : Fin 9) : Piece :=
  match i with
  | 0 => b.c0
  | 1 => b.c1
  | 2 => b.c2
  | 3 => b.c3
  | 4 => b.c4
  | 5 => b.c5
  | 6 => b.c6
  | 7 => b.c7
  | 8 => b.c8

/-- The board with the cell at an index in range overwritten. -/
def Board.set (b : Board) (i : Fin 9) (p : Piece) : Board :=
  match i with
  | 0 => { b with c0 := p }
  | 1 => { b with c1 := p }
  | 2 => { b with c2 := p }
  | 3 => { b with c3 := p }
  | 4 => { b with c4 := p }
  | 5 => { b with c5 := p }
  | 6 => { b with c6 := p }
  | 7 => { b with c7 := p }
  | 8 => { b with c8 := p }

/-- A read `board[i]` with an `int` index. -/
def readCell (board : Board) (i : Nat) : Except Fault Piece :=
  if h : i < 9 then .ok (board.get ⟨i, h⟩) else .error .outOfRange

/-- A write `board[i] = p` with an `int` index. -/
def writeCell (board : Board) (i : Nat) (p : Piece) : Except Fault Board :=
  if h : i < 9 then .ok (board.set ⟨i, h⟩ p) else .error .outOfRange

/-- The table `const int w1[] = { 0, 3, 6, 0, 1, 2, 0, 2 }`. -/
def w1 : List Nat := [0, 3, 6, 0, 1, 2, 0, 2]

/-- The table `const int w2[] = { 1, 4, 7, 3, 4, 5, 4, 4 }`. -/
def w2 : List Nat := [1, 4, 7, 3, 4, 5, 4, 4]

/-- The table `const int w3[] = { 2, 5, 8, 6, 7, 8, 8, 6 }`. -/
def w3 : List Nat := [2, 5, 8, 6, 7, 8, 8, 6]

/-- A read `w[i]` of one of the line tables. -/
def tableAt (w : List Nat) (i : Nat) : Except Fault Nat :=
  match w.get? i with
  | some v => .ok v
  | none => .error .outOfRange

/-- The condition `board[w1[i]] == p && board[w2[i]] == p && board[w3[i]] == p`,
evaluated left to right with short-circuit. -/
def lineIs (board : Board) (p : Piece) (i : Nat) : Except Fault Bool := do
  let a ← tableAt w1 i
  let ca ← readCell board a
  if ca = p then
    let c ← tableAt w2 i
    let cc ← readCell board c
    if cc = p then
      let d ← tableAt w3 i
      let cd ← readCell board d
      pure (decide (cd = p))
    else pure false
  else pure false

/-- One of the two scanning loops of `checkWin`,
`for (i ...; i < 8; i++) if (line i is all p) return ...;`,
run over the remaining indices: `true` when the loop returns from inside. -/
def scanLines (board : Board) (p : Piece) : List Nat → Except Fault Bool
  | [] => pure false
  | i :: rest => do
    if (← lineIs board p i) then pure true else scanLines board p rest

/-- The counting loop of `checkWin`:
`for (i ...; i < 9; i++) if (board[i] == Empty) spaces++;`. -/
def countSpaces (board : Board) : List Nat → Nat → Except Fault Nat
  | [], spaces => pure spaces
  | i :: rest, spaces => do
    if (← readCell board i) = Piece.Empty then countSpaces board rest (spaces + 1)
    else countSpaces board rest spaces

/-- The function `WinState checkWin()`. -/
def checkWin (board : Board) : Except Fault WinState := do
  if (← scanLines board Piece.X (List.range 8)) then pure WinState.XWin
  else if (← scanLines board Piece.O (List.range 8)) then pure WinState.OWin
  else
    let spaces ← countSpaces board (List.range 9) 0
    if spaces = 0 then pure WinState.Draw else pure WinState.NotFinished

/-- The local `opposite` of `minmax`: `X` when `piece == O`, else `O`. -/
def opposite (piece : Piece) : Piece :=
  if piece = Piece.O then Piece.X else Piece.O

/-- The C operator `!` on an `int`. -/
def lnot (v : Int) : Int := if v = 0 then 1 else 0

/-- The loop of `minmax` over the remaining cell indices, with the recursive
call `minmax(opposite, !maximize)` passed in as `call`; the state is the
running `bestScore` and the board. -/
def minmaxLoop (call : Board → Except Fault (Int × Board)) (piece : Piece) (maximize : Int) :
    List Nat → Int → Board → Except Fault (Int × Board)
  | [], bestScore, board => pure (bestScore, board)
  | i :: rest, bestScore, board => do
    if (← readCell board i) = Piece.Empty then
      let board ← writeCell board i piece
      let (score, board) ← call board
      let bestScore := if maximize ≠ 0 then max bestScore score else min bestScore score
      let board ← writeCell board i Piece.Empty
      minmaxLoop call piece maximize rest bestScore board
    else minmaxLoop call piece maximize rest bestScore board

/-- The function `int minmax(Piece piece, int maximize)`.  The first argument
is the depth budget: the number of nested activations of `minmax` the run may
use, the outermost included; a run that would nest deeper yields `outOfFuel`.
Returns the score and the board it leaves. -/
def minmax : Nat → Piece → Int → Board → Except Fault (Int × Board)
  | 0, _, _, _ => .error .outOfFuel
  | fuel + 1, piece, maximize, board => do
    match (← checkWin board) with
    | .XWin => pure (-1, board)
    | .OWin => pure (1, board)
    | .Draw => pure (0, board)
    | .NotFinished =>
      let bestScore : Int := if maximize ≠ 0 then -1 else 1
      minmaxLoop (fun b => minmax fuel (opposite piece) (lnot maximize) b)
        piece maximize (List.range 9) bestScore board

/-- The loop of `getComputerMove` over the remaining cell indices; the state
is `moveScore`, `move` and the board. -/
def moveLoop (fuel : Nat) : List Nat → Int → Nat → Board → Except Fault (Nat × Board)
  | [], _, move, board => pure (move, board)
  | i :: rest, moveScore, move, board => do
    if (← readCell board i) = Piece.Empty then
      let board ← writeCell board i Piece.O
      let (score, board) ← minmax fuel Piece.X 0 board
      let (moveScore, move) := if score > moveScore then (score, i) else (moveScore, move)
      let board ← writeCell board i Piece.Empty
      moveLoop fuel rest moveScore move board
    else moveLoop fuel rest moveScore move board

/-- The function `int getComputerMove()`; `fuel` is the depth budget of its
calls to `minmax`.  Returns the move and the board it leaves. -/
def getComputerMove (fuel : Nat) (board : Board) : Except Fault (Nat × Board) :=
  moveLoop fuel (List.range 9) (-1) 0 board

/-- The loop of `resetGame` over the remaining cell indices:
`for (i ...; i < 9; i++) board[i] = Empty;`. -/
def resetLoop : List Nat → Board → Except Fault Board
  | [], board => pure board
  | i :: rest, board => do
    let board ← writeCell board i Piece.Empty
    resetLoop rest board

/-- The function `void resetGame()`.  Returns the board it leaves. -/
def resetGame (board : Board) : Except Fault Board :=
  resetLoop (List.range 9) board

/-- The value of an enumerator of `enum Piece { X, O, Empty }`: the
enumerators are numbered from zero in the order they are listed. -/
def Piece.value : Piece → Nat
  | .X => 0
  | .O => 1
  | .Empty => 2

/-- The piece a zero-initialised `Piece` object holds: the one whose
enumerator value is `0`. -/
def zeroPiece : Piece := Piece.X

/-- Element `i` of an array declared with a brace list,
`Piece a[n] = { listed... }`: the listed elements take the listed values, the
remaining ones are zero-initialised. -/
def aggregateInit (listed : List Piece) (i : Nat) : Piece :=
  listed.getD i zeroPiece

/-- The board with given cells. -/
def Board.ofFn (f : Fin 9 → Piece) : Board :=
  ⟨f 0, f 1, f 2, f 3, f 4, f 5, f 6, f 7, f 8⟩

/-- The initial value of the global, `Piece board[9] = { Empty };`. -/
def initialBoard : Board :=
  Board.ofFn fun i => aggregateInit [Piece.Empty] i.val

/-- The board after `resetGame()`: every cell `Empty`. -/
def emptyBoard : Board :=
  ⟨.Empty, .Empty, .Empty, .Empty, .Empty, .Empty, .Empty, .Empty, .Empty⟩

/-! ## The play loop of `main` -/

/-- Where the game loop of `main` stands: `human` at the head of the inner
`while`, before the test `checkWin() == NotFinished`; `computer` after the
human's write, before the test `checkWin() != NotFinished`. -/
inductive Turn where
  | human
  | computer
  deriving DecidableEq

/-- The boards the game loop of `main` can hold: the board after
`resetGame()`; on a `NotFinished` board the human writes `X` into any cell
that `getUserMove` accepts (in range and `Empty`); if the board is still
`NotFinished` the computer writes `O` into the cell `getComputerMove()`
returns. -/
inductive Reach : Turn → Board → Prop where
  | start : Reach .human emptyBoard
  | human (b b1 : Board) (i : Nat) :
      Reach .human b → checkWin b = .ok WinState.NotFinished →
      readCell b i = .ok Piece.Empty → writeCell b i Piece.X = .ok b1 →
      Reach .computer b1
  | computer (b b1 b2 : Board) (fuel move : Nat) :
      Reach .computer b → checkWin b = .ok WinState.NotFinished →
      getComputerMove fuel b = .ok (move, b1) → writeCell b1 move Piece.O = .ok b2 →
      Reach .human b2

/-- Every game continued from the board ends, after finitely many moves, on
a board with `checkWin() = OWin`: the board is won by `O`; or it is not
finished, the side to move has a move, and every move it can make (any
accepted cell for the human, the cell of `getComputerMove()` for the
computer) leads to a board from which the same holds. -/
inductive WinsFrom : Turn → Board → Prop where
  | won (t : Turn) (b : Board) : checkWin b = .ok WinState.OWin → WinsFrom t b
  | human (b : Board) :
      checkWin b = .ok WinState.NotFinished →
      (∃ i, readCell b i = .ok Piece.Empty) →
      (∀ i b1, readCell b i = .ok Piece.Empty → writeCell b i Piece.X = .ok b1 →
        WinsFrom .computer b1) →
      WinsFrom .human b
  | computer (b : Board) :
      checkWin b = .ok WinState.NotFinished →
      (∃ fuel move b1 b2, getComputerMove fuel b = .ok (move, b1) ∧
        writeCell b1 move Piece.O = .ok b2) →
      (∀ fuel move b1 b2, getComputerMove fuel b = .ok (move, b1) →
        writeCell b1 move Piece.O = .ok b2 → WinsFrom .human b2) →
      WinsFrom .computer b

/-! ## Reference functions used to describe the runs -/

/-- One for an `Empty` cell, zero for a marked one. -/
def Piece.space : Piece → Nat
  | .Empty => 1
  | _ => 0

/-- The number of `Empty` cells of a board. -/
def Board.countEmpty (b : Board) : Nat :=
  ((List.finRange 9).map fun i => (b.get i).space).sum

/-- The number of cells of a board that hold the piece `p`. -/
def Board.countPiece (b : Board) (p : Piece) : Nat :=
  ((List.finRange 9).filter fun i => b.get i = p).length

/-- The eight lines of the 3×3 grid (index = row * 3 + col): three rows,
three columns, two diagonals. -/
def lines : List (Fin 9 × Fin 9 × Fin 9) :=
  [(0, 1, 2), (3, 4, 5), (6, 7, 8),
   (0, 3, 6), (1, 4, 7), (2, 5, 8),
   (0, 4, 8), (2, 4, 6)]

/-- Some line of the grid is fully marked with `p`. -/
def Board.hasLine (b : Board) (p : Piece) : Prop :=
  ∃ l ∈ lines, b.get l.1 = p ∧ b.get l.2.1 = p ∧ b.get l.2.2 = p

instance (b : Board) (p : Piece) : Decidable (b.hasLine p) := by
  unfold Board.hasLine; infer_instance

/-- The outcome of a board as a function of its contents. -/
def classify (b : Board) : WinState :=
  if b.hasLine Piece.X then WinState.XWin
  else if b.hasLine Piece.O then WinState.OWin
  else if b.countEmpty = 0 then WinState.Draw
  else WinState.NotFinished

/-- The score `minmax` gives to a finished board. -/
def terminalScore : WinState → Int
  | .XWin => -1
  | .OWin => 1
  | .Draw => 0
  | .NotFinished => 0

/-- The measure that decreases along the recursion of `minmax`. -/
def depthMeasure (b : Board) (p : Piece) : Nat :=
  b.countEmpty + (if p = Piece.Empty then 1 else 0)

/-- The minimax value of a board with `p` to move: the score of a finished
board, else the best of the starting bound and the values of the boards
obtained by marking one `Empty` cell. -/
def V (b : Board) (p : Piece) (m : Int) : Int :=
  match classify b with
  | .XWin => -1
  | .OWin => 1
  | .Draw => 0
  | .NotFinished =>
    (List.finRange 9).foldl (fun best i =>
      if h : b.get i = Piece.Empty then
        let score := V (b.set i p) (opposite p) (lnot m)
        if m ≠ 0 then max best score else min best score
      else best) (if m ≠ 0 then -1 else 1)
termination_by depthMeasure b p
decreasing_by
  have e : List.finRange 9 = [0, 1, 2, 3, 4, 5, 6, 7, 8] := rfl
  show depthMeasure (b.set i p) (opposite p) < depthMeasure b p
  obtain ⟨a0, a1, a2, a3, a4, a5, a6, a7, a8⟩ := b
  fin_cases i <;>
    simp only [Board.get, Board.set, depthMeasure, Board.countEmpty, e, List.map_cons,
      List.map_nil, List.sum_cons, List.sum_nil] at h ⊢ <;>
    subst h <;> cases p <;> simp [Piece.space, opposite]

/-- The minimax definition on immutable boards: the terminal score of `b`
when `checkWin` of `b` is not `NotFinished`, and otherwise the maximum (when
`m` is set) or the minimum (when it is not) of the initial bound (`-1` when
`m` is set, `+1` when not) and the values of the boards `b` with one `Empty`
cell `i` set to `p`, taken with the opposite of `p` and the negated flag. -/
def minimaxValue (b : Board) (p : Piece) (m : Int) : Int :=
  match checkWin b with
  | .ok .XWin => -1
  | .ok .OWin => 1
  | .ok .Draw => 0
  | _ =>
    let values := (List.finRange 9).filterMap fun i =>
      if h : b.get i = Piece.Empty then
        some (minimaxValue (b.set i p) (opposite p) (lnot m))
      else none
    if m ≠ 0 then values.foldr max (-1) else values.foldr min 1
termination_by depthMeasure b p
decreasing_by
  have e : List.finRange 9 = [0, 1, 2, 3, 4, 5, 6, 7, 8] := rfl
  show depthMeasure (b.set i p) (opposite p) < depthMeasure b p
  obtain ⟨a0, a1, a2, a3, a4, a5, a6, a7, a8⟩ := b
  fin_cases i <;>
    simp only [Board.get, Board.set, depthMeasure, Board.countEmpty, e, List.map_cons,
      List.map_nil, List.sum_cons, List.sum_nil] at h ⊢ <;>
    subst h <;> cases p <;> simp [Piece.space, opposite]

/-- One step of the loop of `minmax` on values. -/
def combine (m : Int) (best score : Int) : Int :=
  if m ≠ 0 then max best score else min best score

/-- The loop of `minmax` on values, over the remaining cells. -/
def bestOver (b : Board) (p : Piece) (m : Int) (l : List (Fin 9)) (init : Int) : Int :=
  l.foldl (fun best i =>
    if b.get i = Piece.Empty then combine m best (V (b.set i p) (opposite p) (lnot m))
    else best) init

/-- The loop of `getComputerMove` on values, over the remaining cells; the
state is `(moveScore, move)`. -/
def pickOver (b : Board) (l : List (Fin 9)) (s : Int × Nat) : Int × Nat :=
  l.foldl (fun s i =>
    if b.get i = Piece.Empty then
      (if V (b.set i Piece.O) Piece.X 0 > s.1 then (V (b.set i Piece.O) Piece.X 0, i.val) else s)
    else s) s

/-- The move `getComputerMove` returns, as a function of the board. -/
def bestMove (b : Board) : Nat := (pickOver b (List.finRange 9) (-1, 0)).2

/-- The piece `minmax` is called with for the side to move. -/
def Turn.piece : Turn → Piece
  | .human => Piece.X
  | .computer => Piece.O

/-- The `maximize` flag `minmax` is called with for the side to move. -/
def Turn.flag : Turn → Int
  | .human => 0
  | .computer => 1

/-! ## Bound checks by search with cut-offs -/

/-- Equality test on pieces, by cases. -/
def Piece.is : Piece → Piece → Bool
  | .X, .X => true
  | .O, .O => true
  | .Empty, .Empty => true
  | _, _ => false

/-- Some line is fully marked with `p` (computed on the nine cells). -/
def Board.win (b : Board) (p : Piece) : Bool :=
  match b with
  | ⟨a0, a1, a2, a3, a4, a5, a6, a7, a8⟩ =>
    (a0.is p && a1.is p && a2.is p) || (a3.is p && a4.is p && a5.is p) ||
    (a6.is p && a7.is p && a8.is p) || (a0.is p && a3.is p && a6.is p) ||
    (a1.is p && a4.is p && a7.is p) || (a2.is p && a5.is p && a8.is p) ||
    (a0.is p && a4.is p && a8.is p) || (a2.is p && a4.is p && a6.is p)

/-- Some cell is `Empty` (computed on the nine cells). -/
def Board.hasSpace (b : Board) : Bool :=
  match b with
  | ⟨a0, a1, a2, a3, a4, a5, a6, a7, a8⟩ =>
    a0.is .Empty || a1.is .Empty || a2.is .Empty || a3.is .Empty || a4.is .Empty ||
    a5.is .Empty || a6.is .Empty || a7.is .Empty || a8.is .Empty

/-- Prepend under a condition. -/
def consIf (c : Bool) (x : Board) (l : List Board) : List Board :=
  match c with
  | true => x :: l
  | false => l

/-- The boards obtained by marking one `Empty` cell with `p`, centre first,
then corners, then edges. -/
def kidsAux (b : Board) (p : Piece) : List Board :=
  match b with
  | ⟨a0, a1, a2, a3, a4, a5, a6, a7, a8⟩ =>
    consIf (a4.is .Empty) ⟨a0, a1, a2, a3, p, a5, a6, a7, a8⟩
      (consIf (a0.is .Empty) ⟨p, a1, a2, a3, a4, a5, a6, a7, a8⟩
      (consIf (a2.is .Empty) ⟨a0, a1, p, a3, a4, a5, a6, a7, a8⟩
      (consIf (a6.is .Empty) ⟨a0, a1, a2, a3, a4, a5, p, a7, a8⟩
      (consIf (a8.is .Empty) ⟨a0, a1, a2, a3, a4, a5, a6, a7, p⟩
      (consIf (a1.is .Empty) ⟨a0, p, a2, a3, a4, a5, a6, a7, a8⟩
      (consIf (a3.is .Empty) ⟨a0, a1, a2, p, a4, a5, a6, a7, a8⟩
      (consIf (a5.is .Empty) ⟨a0, a1, a2, a3, a4, p, a6, a7, a8⟩
      (consIf (a7.is .Empty) ⟨a0, a1, a2, a3, a4, a5, a6, p, a8⟩
      ([])))))))))

/-- The function `kidsAux` with the piece evaluated first. -/
def kids (b : Board) (p : Piece) : List Board :=
  match p with
  | .X => kidsAux b .X
  | .O => kidsAux b .O
  | .Empty => kidsAux b .Empty

/-- The function `opposite`, by cases. -/
def next : Piece → Piece
  | .O => .X
  | _ => .O

/-- A bound check for the value of a board by search with cut-offs:
`pX`, `pD`, `pO` say which of the scores `-1`, `0`, `1` satisfy the bound,
`ge` whether it is a lower bound, `mx` whether the node maximizes. -/
def check (pX pD pO ge : Bool) : Nat → Board → Piece → Bool → Bool
  | 0, _, _, _ => false
  | n + 1, b, p, mx =>
    match b.win .X with
    | true => pX
    | false =>
      match b.win .O with
      | true => pO
      | false =>
        match b.hasSpace with
        | false => pD
        | true =>
          match mx, ge with
          | true, true => pX || (kids b p).any fun c => check pX pD pO ge n c (next p) false
          | false, false => pO || (kids b p).any fun c => check pX pD pO ge n c (next p) true
          | true, false => pX && (kids b p).all fun c => check pX pD pO ge n c (next p) false
          | false, true => pO && (kids b p).all fun c => check pX pD pO ge n c (next p) true

/-- The bound a check certifies: a lower bound `t ≤ v` when `ge`, else an
upper bound `v ≤ t`. -/
def Bound (ge : Bool) (t v : Int) : Prop :=
  if ge = true then t ≤ v else v ≤ t

/-- A checked lower bound `t ≤ V b p m`. -/
def geCheck (t : Int) (n : Nat) (b : Board) (p : Piece) (m : Int) : Bool :=
  check (decide (t ≤ -1)) (decide (t ≤ 0)) (decide (t ≤ 1)) true n b p (decide (m ≠ 0))

/-- A checked upper bound `V b p m ≤ t`. -/
def leCheck (t : Int) (n : Nat) (b : Board) (p : Piece) (m : Int) : Bool :=
  check (decide (-1 ≤ t)) (decide (0 ≤ t)) (decide (1 ≤ t)) false n b p (decide (m ≠ 0))

/-- A checked certificate that `getComputerMove` picks cell `j`: the cell is
`Empty`, its trial score is at least `t > -1`, the trial scores of the
`Empty` cells before it are below `t` and those after it at most `t`. -/
def moveCert (b : Board) (j : Fin 9) (t : Int) (n : Nat) : Bool :=
  (b.get j).is Piece.Empty && decide (-1 < t) && geCheck t n (b.set j Piece.O) Piece.X 0 &&
    (List.finRange 9).all fun i =>
      !(b.get i).is Piece.Empty ||
        (if i < j then leCheck (t - 1) n (b.set i Piece.O) Piece.X 0
         else if j < i then leCheck t n (b.set i Piece.O) Piece.X 0 else true)

/-! ## Boards of the scenarios -/

/-- The board `[X,X,Empty, O,O,Empty, Empty,Empty,Empty]` of the blocking
scenario. -/
def blockBoard : Board := ⟨.X, .X, .Empty, .O, .O, .Empty, .Empty, .Empty, .Empty⟩

/-- A board of alternating play (`X` at 0, 2, 4; `O` at 3, 5) on which the
computer is to move and every move loses. -/
def lostBoard : Board := ⟨.X, .Empty, .X, .O, .X, .O, .Empty, .Empty, .Empty⟩

/-- The board `[O,X,X, Empty,...]` after the human's moves 1 and 2 and the
computer's answer 0 to the first. -/
def blunderBoard : Board := ⟨.O, .X, .X, .Empty, .Empty, .Empty, .Empty, .Empty, .Empty⟩

/-- A board with a single `Empty` cell and no full line:
`[X,O,X, X,O,O, O,X,Empty]`. -/
def oneGapBoard : Board := ⟨.X, .O, .X, .X, .O, .O, .O, .X, .Empty⟩

/-! ## Cells and the measure of the recursion -/

theorem finRange_nine : List.finRange 9 = [0, 1, 2, 3, 4, 5, 6, 7, 8] := by
  rfl

theorem Board.countEmpty_set (b : Board) (i : Fin 9) (p : Piece) (h : b.get i = Piece.Empty) :
    (b.set i p).countEmpty + 1 = b.countEmpty + p.space := by
  obtain ⟨a0, a1, a2, a3, a4, a5, a6, a7, a8⟩ := b
  fin_cases i <;>
    simp only [Board.get, Board.set, Board.countEmpty, finRange_nine, List.map_cons,
      List.map_nil, List.sum_cons, List.sum_nil] at h ⊢ <;>
    subst h <;> simp only [Piece.space] <;> omega

theorem opposite_ne_empty (p : Piece) : opposite p ≠ Piece.Empty := by
  cases p <;> simp [opposite]

theorem depthMeasure_child (b : Board) (i : Fin 9) (p : Piece) (h : b.get i = Piece.Empty) :
    depthMeasure (b.set i p) (opposite p) < depthMeasure b p := by
  have h1 := b.countEmpty_set i p h
  have h2 := opposite_ne_empty p
  unfold depthMeasure
  cases p <;> simp [Piece.space, opposite] at h1 ⊢ <;> omega

/-! ## The classifier -/

@[simp] theorem readCell_fin (b : Board) (i : Fin 9) : readCell b i.val = .ok (b.get i) := by
  simp [readCell, i.isLt]

@[simp] theorem writeCell_fin (b : Board) (i : Fin 9) (p : Piece) :
    writeCell b i.val p = .ok (b.set i p) := by
  simp [writeCell, i.isLt]

theorem Board.set_restore (b : Board) (i : Fin 9) (p : Piece) (h : b.get i = Piece.Empty) :
    (b.set i p).set i Piece.Empty = b := by
  obtain ⟨a0, a1, a2, a3, a4, a5, a6, a7, a8⟩ := b
  fin_cases i <;> simp only [Board.get, Board.set] at h ⊢ <;> subst h <;> rfl

theorem Board.get_set (b : Board) (i j : Fin 9) (p : Piece) :
    (b.set i p).get j = if j = i then p else b.get j := by
  obtain ⟨a0, a1, a2, a3, a4, a5, a6, a7, a8⟩ := b
  fin_cases i <;> fin_cases j <;> rfl

theorem lineIs_ok (b : Board) (p : Piece) (i : Nat) (l : Fin 9 × Fin 9 × Fin 9)
    (h1 : w1.get? i = some l.1.val) (h2 : w2.get? i = some l.2.1.val)
    (h3 : w3.get? i = some l.2.2.val) :
    lineIs b p i = .ok (decide (b.get l.1 = p ∧ b.get l.2.1 = p ∧ b.get l.2.2 = p)) := by
  simp only [lineIs, tableAt, h1, h2, h3, readCell_fin, bind, Except.bind, pure, Except.pure]
  split_ifs <;> simp_all

theorem scanLines_indexed (b : Board) (p : Piece) (ls : List (Nat × (Fin 9 × Fin 9 × Fin 9)))
    (h : ∀ x ∈ ls, w1.get? x.1 = some x.2.1.val ∧ w2.get? x.1 = some x.2.2.1.val ∧
      w3.get? x.1 = some x.2.2.2.val) :
    scanLines b p (ls.map Prod.fst) =
      .ok (decide (∃ l ∈ ls.map Prod.snd, b.get l.1 = p ∧ b.get l.2.1 = p ∧ b.get l.2.2 = p)) := by
  induction ls with
  | nil => simp [scanLines, pure, Except.pure]
  | cons x rest ih =>
    have hx := h x (List.mem_cons_self _ _)
    have hr := ih (fun y hy => h y (List.mem_cons_of_mem _ hy))
    simp only [List.map_cons, scanLines, lineIs_ok b p x.1 x.2 hx.1 hx.2.1 hx.2.2, hr, bind,
      Except.bind, pure, Except.pure]
    by_cases hm : b.get x.2.1 = p ∧ b.get x.2.2.1 = p ∧ b.get x.2.2.2 = p
    · simp [hm]
    · simp [hm]

theorem scanLines_range (b : Board) (p : Piece) :
    scanLines b p (List.range 8) = .ok (decide (b.hasLine p)) := by
  have h := scanLines_indexed b p lines.enum (by decide)
  have e1 : lines.enum.map Prod.fst = List.range 8 := by decide
  have e2 : lines.enum.map Prod.snd = lines := by decide
  rw [e1, e2] at h
  exact h

theorem countSpaces_fin (b : Board) (l : List (Fin 9)) (acc : Nat) :
    countSpaces b (l.map Fin.val) acc = .ok (acc + (l.map fun i => (b.get i).space).sum) := by
  induction l generalizing acc with
  | nil => simp [countSpaces, pure, Except.pure]
  | cons i rest ih =>
    simp only [List.map_cons, countSpaces, readCell_fin, bind, Except.bind, pure, Except.pure,
      List.sum_cons]
    by_cases hi : b.get i = Piece.Empty
    · simp [hi, ih, Piece.space]; omega
    · have : (b.get i).space = 0 := by
        cases hc : b.get i <;> simp_all [Piece.space]
      simp [hi, ih, this]

theorem range_nine : List.range 9 = (List.finRange 9).map Fin.val := by decide

theorem checkWin_eq (b : Board) : checkWin b = .ok (classify b) := by
  simp only [checkWin, scanLines_range, range_nine, countSpaces_fin, bind, Except.bind, pure,
    Except.pure, classify, Board.countEmpty]
  by_cases hX : b.hasLine Piece.X
  · simp [hX]
  · by_cases hO : b.hasLine Piece.O
    · simp [hX, hO]
    · simp [hX, hO]
      split_ifs <;> simp_all

/-! ## The search -/

theorem V_eq (b : Board) (p : Piece) (m : Int) :
    V b p m = match classify b with
      | .XWin => -1
      | .OWin => 1
      | .Draw => 0
      | .NotFinished => bestOver b p m (List.finRange 9) (if m ≠ 0 then -1 else 1) := by
  rw [V]
  cases classify b <;> simp only [bestOver, combine, dite_eq_ite]

theorem minmaxLoop_eq (call : Board → Except Fault (Int × Board)) (b : Board) (p : Piece)
    (m : Int) (l : List (Fin 9))
    (hcall : ∀ i ∈ l, b.get i = Piece.Empty →
      call (b.set i p) = .ok (V (b.set i p) (opposite p) (lnot m), b.set i p)) (best : Int) :
    minmaxLoop call p m (l.map Fin.val) best b = .ok (bestOver b p m l best, b) := by
  induction l generalizing best with
  | nil => simp [minmaxLoop, bestOver, pure, Except.pure]
  | cons i rest ih =>
    have hr := ih (fun j hj => hcall j (List.mem_cons_of_mem _ hj))
    simp only [List.map_cons, minmaxLoop, readCell_fin, writeCell_fin, bind, Except.bind, pure,
      Except.pure]
    by_cases hi : b.get i = Piece.Empty
    · simp only [hi, if_true, hcall i (List.mem_cons_self _ _) hi, writeCell_fin,
        Board.set_restore b i p hi, hr]
      simp [bestOver, hi, combine]
    · simp only [hi, if_false, hr]
      simp [bestOver, hi]

theorem minmax_eq (fuel : Nat) (b : Board) (p : Piece) (m : Int)
    (h : depthMeasure b p < fuel) : minmax fuel p m b = .ok (V b p m, b) := by
  induction fuel generalizing b p m with
  | zero => omega
  | succ n ih =>
    rw [V_eq]
    simp only [minmax, checkWin_eq, bind, Except.bind, pure, Except.pure]
    cases hc : classify b with
    | XWin => rfl
    | OWin => rfl
    | Draw => rfl
    | NotFinished =>
      simp only [range_nine]
      exact minmaxLoop_eq _ b p m (List.finRange 9)
        (fun i _ hi => ih _ _ _ (by have := depthMeasure_child b i p hi; omega)) _

/-! ## The move selection -/

theorem depthMeasure_trial (b : Board) (i : Fin 9) (h : b.get i = Piece.Empty) :
    depthMeasure (b.set i Piece.O) Piece.X + 1 = b.countEmpty := by
  have h1 := b.countEmpty_set i Piece.O h
  simp [depthMeasure, Piece.space] at h1 ⊢
  omega

theorem moveLoop_eq (fuel : Nat) (b : Board) (l : List (Fin 9))
    (hcall : ∀ i ∈ l, b.get i = Piece.Empty →
      minmax fuel Piece.X 0 (b.set i Piece.O) =
        .ok (V (b.set i Piece.O) Piece.X 0, b.set i Piece.O)) (ms : Int) (mv : Nat) :
    moveLoop fuel (l.map Fin.val) ms mv b = .ok ((pickOver b l (ms, mv)).2, b) := by
  induction l generalizing ms mv with
  | nil => simp [moveLoop, pickOver, pure, Except.pure]
  | cons i rest ih =>
    have hr := ih (fun j hj => hcall j (List.mem_cons_of_mem _ hj))
    simp only [List.map_cons, moveLoop, readCell_fin, writeCell_fin, bind, Except.bind, pure,
      Except.pure]
    by_cases hi : b.get i = Piece.Empty
    · simp only [hi, if_true, hcall i (List.mem_cons_self _ _) hi, writeCell_fin,
        Board.set_restore b i Piece.O hi]
      by_cases hv : V (b.set i Piece.O) Piece.X 0 > ms
      · simp [hv, hr, pickOver, hi]
      · simp [hv, hr, pickOver, hi]
    · simp only [hi, if_false, hr]
      simp [pickOver, hi]

theorem getComputerMove_eq (fuel : Nat) (b : Board) (h : b.countEmpty ≤ fuel) :
    getComputerMove fuel b = .ok (bestMove b, b) := by
  unfold getComputerMove bestMove
  rw [range_nine]
  exact moveLoop_eq fuel b _
    (fun i _ hi => minmax_eq _ _ _ _ (by have := depthMeasure_trial b i hi; omega)) _ _

theorem minmaxLoop_ok (call : Board → Except Fault (Int × Board)) (b : Board) (p : Piece)
    (m : Int) (l : List (Fin 9))
    (hcall : ∀ i ∈ l, b.get i = Piece.Empty → ∀ r, call (b.set i p) = .ok r →
      r = (V (b.set i p) (opposite p) (lnot m), b.set i p)) (best : Int)
    (r : Int × Board) (hr : minmaxLoop call p m (l.map Fin.val) best b = .ok r) :
    r = (bestOver b p m l best, b) := by
  induction l generalizing best with
  | nil =>
    simp only [List.map_nil, minmaxLoop, pure, Except.pure, Except.ok.injEq] at hr
    simp [bestOver, ← hr]
  | cons i rest ih =>
    have ih2 := ih (fun j hj => hcall j (List.mem_cons_of_mem _ hj))
    simp only [List.map_cons, minmaxLoop, readCell_fin, writeCell_fin, bind, Except.bind, pure,
      Except.pure] at hr
    by_cases hi : b.get i = Piece.Empty
    · simp only [hi, if_true] at hr
      cases hc : call (b.set i p) with
      | error e => simp [hc] at hr
      | ok r1 =>
        have e1 := hcall i (List.mem_cons_self _ _) hi r1 hc
        subst e1
        simp only [hc, writeCell_fin, Board.set_restore b i p hi] at hr
        have := ih2 _ hr
        simp [this, bestOver, hi, combine]
    · simp only [hi, if_false] at hr
      have := ih2 _ hr
      simp [this, bestOver, hi]

theorem minmax_ok (fuel : Nat) (b : Board) (p : Piece) (m : Int) (r : Int × Board)
    (hr : minmax fuel p m b = .ok r) : r = (V b p m, b) := by
  induction fuel generalizing b p m r with
  | zero => simp [minmax] at hr
  | succ n ih =>
    rw [V_eq]
    simp only [minmax, checkWin_eq, bind, Except.bind, pure, Except.pure] at hr
    cases hc : classify b with
    | XWin => simp only [hc, Except.ok.injEq] at hr; simp [← hr]
    | OWin => simp only [hc, Except.ok.injEq] at hr; simp [← hr]
    | Draw => simp only [hc, Except.ok.injEq] at hr; simp [← hr]
    | NotFinished =>
      simp only [hc, range_nine] at hr
      exact minmaxLoop_ok _ b p m (List.finRange 9) (fun i _ _ r1 h1 => ih _ _ _ _ h1) _ _ hr

theorem moveLoop_ok (fuel : Nat) (b : Board) (l : List (Fin 9)) (ms : Int) (mv : Nat)
    (r : Nat × Board) (hr : moveLoop fuel (l.map Fin.val) ms mv b = .ok r) :
    r = ((pickOver b l (ms, mv)).2, b) := by
  induction l generalizing ms mv with
  | nil =>
    simp only [List.map_nil, moveLoop, pure, Except.pure, Except.ok.injEq] at hr
    simp [pickOver, ← hr]
  | cons i rest ih =>
    simp only [List.map_cons, moveLoop, readCell_fin, writeCell_fin, bind, Except.bind, pure,
      Except.pure] at hr
    by_cases hi : b.get i = Piece.Empty
    · simp only [hi, if_true] at hr
      cases hc : minmax fuel Piece.X 0 (b.set i Piece.O) with
      | error e => simp [hc] at hr
      | ok r1 =>
        have e1 := minmax_ok _ _ _ _ _ hc
        subst e1
        simp only [hc, writeCell_fin, Board.set_restore b i Piece.O hi] at hr
        by_cases hv : V (b.set i Piece.O) Piece.X 0 > ms
        · simp only [hv, if_true] at hr
          have := ih _ _ hr
          simp [this, pickOver, hi, hv]
        · simp only [hv, if_false] at hr
          have := ih _ _ hr
          simp [this, pickOver, hi, hv]
    · simp only [hi, if_false] at hr
      have := ih _ _ hr
      simp [this, pickOver, hi]

theorem getComputerMove_ok (fuel : Nat) (b : Board) (r : Nat × Board)
    (hr : getComputerMove fuel b = .ok r) : r = (bestMove b, b) := by
  unfold getComputerMove at hr
  rw [range_nine] at hr
  exact moveLoop_ok fuel b _ _ _ r hr

/-! ## The loop of `minmax` as a maximum or minimum -/

theorem bestOver_cons (b : Board) (p : Piece) (m : Int) (i : Fin 9) (l : List (Fin 9))
    (init : Int) :
    bestOver b p m (i :: l) init =
      bestOver b p m l (if b.get i = Piece.Empty then
        combine m init (V (b.set i p) (opposite p) (lnot m)) else init) := rfl

theorem bestOver_max_ge_init (b : Board) (p : Piece) (m : Int) (hm : m ≠ 0) (l : List (Fin 9))
    (init : Int) : init ≤ bestOver b p m l init := by
  induction l generalizing init with
  | nil => simp [bestOver]
  | cons i rest ih =>
    rw [bestOver_cons]
    refine le_trans ?_ (ih _)
    split_ifs
    · simp [combine, hm]
    · exact le_refl _

theorem bestOver_max_ge_child (b : Board) (p : Piece) (m : Int) (hm : m ≠ 0)
    (l : List (Fin 9)) (init : Int) (i : Fin 9) (hi : i ∈ l) (he : b.get i = Piece.Empty) :
    V (b.set i p) (opposite p) (lnot m) ≤ bestOver b p m l init := by
  induction l generalizing init with
  | nil => simp at hi
  | cons j rest ih =>
    rw [bestOver_cons]
    rcases List.mem_cons.mp hi with h | h
    · subst h
      refine le_trans ?_ (bestOver_max_ge_init b p m hm rest _)
      simp [he, combine, hm]
    · exact ih _ h

theorem bestOver_max_le (b : Board) (p : Piece) (m : Int) (hm : m ≠ 0) (t : Int)
    (l : List (Fin 9)) (init : Int) (h0 : init ≤ t)
    (hc : ∀ i ∈ l, b.get i = Piece.Empty → V (b.set i p) (opposite p) (lnot m) ≤ t) :
    bestOver b p m l init ≤ t := by
  induction l generalizing init with
  | nil => simpa [bestOver] using h0
  | cons j rest ih =>
    rw [bestOver_cons]
    apply ih
    · split_ifs with hj
      · simp only [combine, hm, ne_eq, not_false_eq_true, if_true]
        exact max_le h0 (hc j (List.mem_cons_self _ _) hj)
      · exact h0
    · exact fun i hi => hc i (List.mem_cons_of_mem _ hi)

theorem bestOver_min_le_init (b : Board) (p : Piece) (l : List (Fin 9)) (init : Int) :
    bestOver b p 0 l init ≤ init := by
  induction l generalizing init with
  | nil => simp [bestOver]
  | cons i rest ih =>
    rw [bestOver_cons]
    refine le_trans (ih _) ?_
    split_ifs
    · simp [combine]
    · exact le_refl _

theorem bestOver_min_le_child (b : Board) (p : Piece) (l : List (Fin 9)) (init : Int)
    (i : Fin 9) (hi : i ∈ l) (he : b.get i = Piece.Empty) :
    bestOver b p 0 l init ≤ V (b.set i p) (opposite p) (lnot 0) := by
  induction l generalizing init with
  | nil => simp at hi
  | cons j rest ih =>
    rw [bestOver_cons]
    rcases List.mem_cons.mp hi with h | h
    · subst h
      refine le_trans (bestOver_min_le_init b p rest _) ?_
      simp [he, combine]
    · exact ih _ h

theorem bestOver_min_ge (b : Board) (p : Piece) (t : Int) (l : List (Fin 9)) (init : Int)
    (h0 : t ≤ init)
    (hc : ∀ i ∈ l, b.get i = Piece.Empty → t ≤ V (b.set i p) (opposite p) (lnot 0)) :
    t ≤ bestOver b p 0 l init := by
  induction l generalizing init with
  | nil => simpa [bestOver] using h0
  | cons j rest ih =>
    rw [bestOver_cons]
    apply ih
    · split_ifs with hj
      · simp only [combine, ne_eq, not_true_eq_false, if_false]
        exact le_min h0 (hc j (List.mem_cons_self _ _) hj)
      · exact h0
    · exact fun i hi => hc i (List.mem_cons_of_mem _ hi)

theorem V_notFinished (b : Board) (p : Piece) (m : Int) (h : classify b = .NotFinished) :
    V b p m = bestOver b p m (List.finRange 9) (if m ≠ 0 then -1 else 1) := by
  rw [V_eq, h]

theorem V_finished (b : Board) (p : Piece) (m : Int) (h : classify b ≠ .NotFinished) :
    V b p m = terminalScore (classify b) := by
  rw [V_eq]
  cases hc : classify b <;> simp_all [terminalScore]

/-! ## Soundness of the bound check -/

theorem Piece.is_eq (a p : Piece) : a.is p = decide (a = p) := by
  cases a <;> cases p <;> rfl

theorem Piece.is_empty_eq (a : Piece) : a.is .Empty = decide (a.space ≠ 0) := by
  cases a <;> rfl

theorem Board.win_eq (b : Board) (p : Piece) : b.win p = decide (b.hasLine p) := by
  obtain ⟨a0, a1, a2, a3, a4, a5, a6, a7, a8⟩ := b
  simp only [Board.win, Piece.is_eq, Board.hasLine, lines, Board.get]
  simp [Bool.and_assoc, Bool.or_assoc]

theorem Board.hasSpace_eq (b : Board) : b.hasSpace = decide (b.countEmpty ≠ 0) := by
  obtain ⟨a0, a1, a2, a3, a4, a5, a6, a7, a8⟩ := b
  simp only [Board.hasSpace, Board.countEmpty, finRange_nine, Board.get, List.map_cons,
    List.map_nil, List.sum_cons, List.sum_nil, Piece.is_empty_eq]
  rw [Bool.eq_iff_iff]
  simp only [Bool.or_eq_true, decide_eq_true_eq]
  omega

theorem classify_of_winX (b : Board) (h : b.win .X = true) : classify b = .XWin := by
  rw [Board.win_eq] at h
  simp [classify, of_decide_eq_true h]

theorem classify_of_winO (b : Board) (hX : b.win .X = false) (h : b.win .O = true) :
    classify b = .OWin := by
  rw [Board.win_eq] at h hX
  simp [classify, of_decide_eq_true h, of_decide_eq_false hX]

theorem classify_of_full (b : Board) (hX : b.win .X = false) (hO : b.win .O = false)
    (h : b.hasSpace = false) : classify b = .Draw := by
  rw [Board.win_eq] at hO hX
  rw [Board.hasSpace_eq] at h
  have := of_decide_eq_false h
  simp only [ne_eq, not_not] at this
  simp [classify, of_decide_eq_false hO, of_decide_eq_false hX, this]

theorem classify_of_space (b : Board) (hX : b.win .X = false) (hO : b.win .O = false)
    (h : b.hasSpace = true) : classify b = .NotFinished := by
  rw [Board.win_eq] at hO hX
  rw [Board.hasSpace_eq] at h
  have := of_decide_eq_true h
  simp [classify, of_decide_eq_false hO, of_decide_eq_false hX, this]

theorem next_eq (p : Piece) : next p = opposite p := by
  cases p <;> rfl

theorem mem_consIf (c : Bool) (x y : Board) (l : List Board) :
    x ∈ consIf c y l ↔ (c = true ∧ x = y) ∨ x ∈ l := by
  cases c <;> simp [consIf]

theorem kids_eq (b : Board) (p : Piece) : kids b p = kidsAux b p := by
  cases p <;> rfl

theorem mem_kids (b : Board) (p : Piece) (c : Board) :
    c ∈ kids b p ↔ ∃ i, b.get i = Piece.Empty ∧ c = b.set i p := by
  rw [kids_eq]
  obtain ⟨a0, a1, a2, a3, a4, a5, a6, a7, a8⟩ := b
  simp only [kidsAux, mem_consIf, List.not_mem_nil, or_false, Piece.is_eq, decide_eq_true_eq]
  constructor
  · rintro (h | h | h | h | h | h | h | h | h)
    · exact ⟨4, h.1, h.2⟩
    · exact ⟨0, h.1, h.2⟩
    · exact ⟨2, h.1, h.2⟩
    · exact ⟨6, h.1, h.2⟩
    · exact ⟨8, h.1, h.2⟩
    · exact ⟨1, h.1, h.2⟩
    · exact ⟨3, h.1, h.2⟩
    · exact ⟨5, h.1, h.2⟩
    · exact ⟨7, h.1, h.2⟩
  · rintro ⟨i, h1, h2⟩
    fin_cases i <;> simp only [Board.get, Board.set] at h1 h2 <;> simp [h1, h2]

theorem check_sound (t : Int) (pX pD pO ge : Bool) (hX : pX = true → Bound ge t (-1))
    (hD : pD = true → Bound ge t 0) (hO : pO = true → Bound ge t 1) (n : Nat) (b : Board)
    (p : Piece) (mx : Bool) (m : Int) (hm : mx = decide (m ≠ 0))
    (h : check pX pD pO ge n b p mx = true) : Bound ge t (V b p m) := by
  induction n generalizing b p mx m with
  | zero => simp [check] at h
  | succ n ih =>
    simp only [check] at h
    cases hwx : b.win .X with
    | true =>
      simp only [hwx] at h
      rw [V_finished b p m (by simp [classify_of_winX b hwx]), classify_of_winX b hwx]
      exact hX h
    | false =>
      simp only [hwx] at h
      cases hwo : b.win .O with
      | true =>
        simp only [hwo] at h
        rw [V_finished b p m (by simp [classify_of_winO b hwx hwo]),
          classify_of_winO b hwx hwo]
        exact hO h
      | false =>
        simp only [hwo] at h
        cases hs : b.hasSpace with
        | false =>
          simp only [hs] at h
          rw [V_finished b p m (by simp [classify_of_full b hwx hwo hs]),
            classify_of_full b hwx hwo hs]
          exact hD h
        | true =>
          simp only [hs] at h
          rw [V_notFinished b p m (classify_of_space b hwx hwo hs)]
          cases mx with
          | true =>
            have hm0 : m ≠ 0 := of_decide_eq_true hm.symm
            have hl : false = decide (lnot m ≠ 0) := by simp [lnot, hm0]
            cases ge with
            | true =>
              simp only [Bool.or_eq_true, List.any_eq_true] at h
              simp only [Bound, if_true] at hX ih ⊢
              simp only [hm0, ne_eq, not_false_eq_true, if_true]
              rcases h with h | ⟨c, hc, h⟩
              · exact le_trans (hX h) (bestOver_max_ge_init b p m hm0 _ _)
              · obtain ⟨i, hi, rfl⟩ := (mem_kids b p c).mp hc
                rw [next_eq] at h
                exact le_trans (ih _ _ _ _ hl h)
                  (bestOver_max_ge_child b p m hm0 _ _ i (List.mem_finRange i) hi)
            | false =>
              simp only [Bool.and_eq_true, List.all_eq_true] at h
              simp only [Bound, Bool.false_eq_true, if_false] at hX ih ⊢
              simp only [hm0, ne_eq, not_false_eq_true, if_true]
              refine bestOver_max_le b p m hm0 t _ _ (hX h.1) (fun i _ hi => ?_)
              have := h.2 (b.set i p) ((mem_kids b p _).mpr ⟨i, hi, rfl⟩)
              rw [next_eq] at this
              exact ih _ _ _ _ hl this
          | false =>
            have hm0 : m = 0 := by
              have := of_decide_eq_false hm.symm
              simpa using this
            subst hm0
            have hl : true = decide (lnot 0 ≠ 0) := by simp [lnot]
            cases ge with
            | true =>
              simp only [Bool.and_eq_true, List.all_eq_true] at h
              simp only [Bound, if_true] at hO ih ⊢
              simp only [ne_eq, not_true_eq_false, if_false]
              refine bestOver_min_ge b p t _ _ (hO h.1) (fun i _ hi => ?_)
              have := h.2 (b.set i p) ((mem_kids b p _).mpr ⟨i, hi, rfl⟩)
              rw [next_eq] at this
              exact ih _ _ _ _ hl this
            | false =>
              simp only [Bool.or_eq_true, List.any_eq_true] at h
              simp only [Bound, Bool.false_eq_true, if_false] at hO ih ⊢
              simp only [ne_eq, not_true_eq_false, if_false]
              rcases h with h | ⟨c, hc, h⟩
              · exact le_trans (bestOver_min_le_init b p _ _) (hO h)
              · obtain ⟨i, hi, rfl⟩ := (mem_kids b p c).mp hc
                rw [next_eq] at h
                exact le_trans (bestOver_min_le_child b p _ _ i (List.mem_finRange i) hi)
                  (ih _ _ _ _ hl h)

theorem geCheck_sound (t : Int) (n : Nat) (b : Board) (p : Piece) (m : Int)
    (h : geCheck t n b p m = true) : t ≤ V b p m := by
  have := check_sound t _ _ _ true (by simp [Bound]) (by simp [Bound]) (by simp [Bound])
    n b p _ m rfl h
  simpa [Bound] using this

theorem leCheck_sound (t : Int) (n : Nat) (b : Board) (p : Piece) (m : Int)
    (h : leCheck t n b p m = true) : V b p m ≤ t := by
  have := check_sound t _ _ _ false (by simp [Bound]) (by simp [Bound]) (by simp [Bound])
    n b p _ m rfl h
  simpa [Bound] using this

set_option maxRecDepth 100000 in
theorem V_emptyBoard : V emptyBoard Piece.X 0 = 0 :=
  le_antisymm (leCheck_sound 0 10 _ _ _ (by decide!)) (geCheck_sound 0 10 _ _ _ (by decide!))

/-! ## Claims on `checkWin` -/

theorem Piece.space_eq_zero (a : Piece) : a.space = 0 ↔ a ≠ Piece.Empty := by
  cases a <;> simp [Piece.space]

theorem Board.countEmpty_eq_zero (b : Board) :
    b.countEmpty = 0 ↔ ∀ i, b.get i ≠ Piece.Empty := by
  simp only [Board.countEmpty, List.sum_eq_zero_iff, List.mem_map, List.mem_finRange, true_and,
    forall_exists_index, forall_apply_eq_imp_iff, Piece.space_eq_zero]

/-- C7: on a board with a line fully marked with one symbol and no line fully
marked with the other symbol, `checkWin` returns the win of the first symbol:
`XWin` for `X`, `OWin` for `O`, whatever the other cells hold. -/
theorem checkWin_line_winner (b : Board) :
    (b.hasLine Piece.X → ¬ b.hasLine Piece.O → checkWin b = .ok WinState.XWin) ∧
    (b.hasLine Piece.O → ¬ b.hasLine Piece.X → checkWin b = .ok WinState.OWin) := by
  rw [checkWin_eq]
  constructor
  · intro hX _
    simp [classify, hX]
  · intro hO hX
    simp [classify, hX, hO]

theorem checkWin_line_winner_witness :
    checkWin ⟨.X, .X, .X, .O, .O, .Empty, .Empty, .Empty, .Empty⟩ = .ok WinState.XWin ∧
    checkWin ⟨.X, .X, .Empty, .O, .O, .O, .X, .Empty, .Empty⟩ = .ok WinState.OWin :=
  ⟨(checkWin_line_winner _).1 (by decide) (by decide),
   (checkWin_line_winner _).2 (by decide) (by decide)⟩

/-- C8: on a board with no `Empty` cell and no row, column or diagonal fully
marked by `X` or by `O`, `checkWin` returns `Draw`; so it does on
`[X,O,X, X,O,O, O,X,X]`. -/
theorem checkWin_full_draw :
    (∀ b : Board, (∀ i, b.get i ≠ Piece.Empty) → ¬ b.hasLine Piece.X → ¬ b.hasLine Piece.O →
      checkWin b = .ok WinState.Draw) ∧
    checkWin ⟨.X, .O, .X, .X, .O, .O, .O, .X, .X⟩ = .ok WinState.Draw := by
  have h : ∀ b : Board, (∀ i, b.get i ≠ Piece.Empty) → ¬ b.hasLine Piece.X →
      ¬ b.hasLine Piece.O → checkWin b = .ok WinState.Draw := by
    intro b hfull hX hO
    rw [checkWin_eq]
    simp [classify, hX, hO, (b.countEmpty_eq_zero).mpr hfull]
  exact ⟨h, h _ (by decide) (by decide) (by decide)⟩

theorem checkWin_full_draw_witness :
    checkWin ⟨.O, .X, .O, .O, .X, .X, .X, .O, .X⟩ = .ok WinState.Draw :=
  checkWin_full_draw.1 _ (by decide) (by decide) (by decide)

/-- C9: on a board with at least one `Empty` cell and no row, column or
diagonal fully marked by one symbol, `checkWin` returns `NotFinished`; so it
does on the all-`Empty` board. -/
theorem checkWin_open_notFinished :
    (∀ b : Board, (∃ i, b.get i = Piece.Empty) → ¬ b.hasLine Piece.X → ¬ b.hasLine Piece.O →
      checkWin b = .ok WinState.NotFinished) ∧
    checkWin emptyBoard = .ok WinState.NotFinished := by
  have h : ∀ b : Board, (∃ i, b.get i = Piece.Empty) → ¬ b.hasLine Piece.X →
      ¬ b.hasLine Piece.O → checkWin b = .ok WinState.NotFinished := by
    intro b hsp hX hO
    rw [checkWin_eq]
    have : b.countEmpty ≠ 0 := by
      intro h0
      obtain ⟨i, hi⟩ := hsp
      exact (b.countEmpty_eq_zero).mp h0 i hi
    simp [classify, hX, hO, this]
  exact ⟨h, h _ ⟨0, rfl⟩ (by decide) (by decide)⟩

theorem checkWin_open_notFinished_witness :
    checkWin ⟨.X, .O, .Empty, .Empty, .X, .Empty, .Empty, .Empty, .O⟩ =
      .ok WinState.NotFinished :=
  checkWin_open_notFinished.1 _ ⟨2, rfl⟩ (by decide) (by decide)

/-! ## The loop of `getComputerMove` as a first maximum -/

theorem pickOver_cons (b : Board) (i : Fin 9) (l : List (Fin 9)) (s : Int × Nat) :
    pickOver b (i :: l) s =
      pickOver b l (if b.get i = Piece.Empty then
        (if V (b.set i Piece.O) Piece.X 0 > s.1 then (V (b.set i Piece.O) Piece.X 0, i.val)
         else s) else s) := rfl

theorem pickOver_append (b : Board) (l1 l2 : List (Fin 9)) (s : Int × Nat) :
    pickOver b (l1 ++ l2) s = pickOver b l2 (pickOver b l1 s) := by
  simp [pickOver, List.foldl_append]

theorem pickOver_fst (b : Board) (l : List (Fin 9)) (s : Int × Nat) :
    (pickOver b l s).1 = bestOver b Piece.O 1 l s.1 := by
  induction l generalizing s with
  | nil => simp [pickOver, bestOver]
  | cons i rest ih =>
    rw [pickOver_cons, bestOver_cons, ih]
    congr 1
    have ho : opposite Piece.O = Piece.X := rfl
    have hl : lnot 1 = 0 := rfl
    rw [ho, hl]
    by_cases hi : b.get i = Piece.Empty
    · simp only [hi, if_true, combine]
      by_cases hv : V (b.set i Piece.O) Piece.X 0 > s.1
      · simp [hv, le_of_lt hv]
      · simp [hv, not_lt.mp hv]
    · simp [hi]

theorem pickOver_cases (b : Board) (l : List (Fin 9)) (s : Int × Nat) :
    pickOver b l s = s ∨ ∃ i ∈ l, b.get i = Piece.Empty ∧
      pickOver b l s = (V (b.set i Piece.O) Piece.X 0, i.val) ∧
      s.1 < V (b.set i Piece.O) Piece.X 0 := by
  induction l generalizing s with
  | nil => left; rfl
  | cons i rest ih =>
    rw [pickOver_cons]
    by_cases hi : b.get i = Piece.Empty
    · by_cases hv : V (b.set i Piece.O) Piece.X 0 > s.1
      · simp only [hi, hv, if_true]
        right
        rcases ih (V (b.set i Piece.O) Piece.X 0, i.val) with h | ⟨j, hj, hje, h1, h2⟩
        · exact ⟨i, List.mem_cons_self _ _, hi, h, hv⟩
        · exact ⟨j, List.mem_cons_of_mem _ hj, hje, h1, lt_trans hv h2⟩
      · simp only [hi, hv, if_true, if_false]
        rcases ih s with h | ⟨j, hj, hje, h1, h2⟩
        · left; exact h
        · right; exact ⟨j, List.mem_cons_of_mem _ hj, hje, h1, h2⟩
    · simp only [hi, if_false]
      rcases ih s with h | ⟨j, hj, hje, h1, h2⟩
      · left; exact h
      · right; exact ⟨j, List.mem_cons_of_mem _ hj, hje, h1, h2⟩

theorem pickOver_skip (b : Board) (l : List (Fin 9)) (s : Int × Nat)
    (h : ∀ i ∈ l, b.get i = Piece.Empty → V (b.set i Piece.O) Piece.X 0 ≤ s.1) :
    pickOver b l s = s := by
  rcases pickOver_cases b l s with h1 | ⟨i, hi, hie, _, h2⟩
  · exact h1
  · exact absurd (h i hi hie) (not_le.mpr h2)

theorem pickOver_lt (b : Board) (l : List (Fin 9)) (s : Int × Nat) (t : Int) (hs : s.1 < t)
    (h : ∀ i ∈ l, b.get i = Piece.Empty → V (b.set i Piece.O) Piece.X 0 < t) :
    (pickOver b l s).1 < t := by
  rcases pickOver_cases b l s with h1 | ⟨i, hi, hie, h1, _⟩
  · rw [h1]; exact hs
  · rw [h1]; exact h i hi hie

theorem finRange_split (j : Fin 9) :
    List.finRange 9 =
      (List.finRange 9).filter (fun i => decide (i < j)) ++
        j :: (List.finRange 9).filter (fun i => decide (j < i)) := by
  fin_cases j <;> rfl

theorem bestMove_eq_of (b : Board) (j : Fin 9) (t : Int) (hj : b.get j = Piece.Empty)
    (ht : -1 < t) (hjt : t ≤ V (b.set j Piece.O) Piece.X 0)
    (hlt : ∀ i, i < j → b.get i = Piece.Empty → V (b.set i Piece.O) Piece.X 0 < t)
    (hle : ∀ i, j < i → b.get i = Piece.Empty → V (b.set i Piece.O) Piece.X 0 ≤ t) :
    bestMove b = j.val := by
  unfold bestMove
  rw [finRange_split j, pickOver_append, pickOver_cons]
  have h1 : (pickOver b ((List.finRange 9).filter (fun i => decide (i < j))) (-1, 0)).1 < t :=
    pickOver_lt b _ _ t ht (fun i hi => hlt i (by simpa using (List.mem_filter.mp hi).2))
  have h2 : V (b.set j Piece.O) Piece.X 0 >
      (pickOver b ((List.finRange 9).filter (fun i => decide (i < j))) (-1, 0)).1 :=
    lt_of_lt_of_le h1 hjt
  simp only [hj, h2, if_true]
  rw [pickOver_skip]
  intro i hi hie
  exact le_trans (hle i (by simpa using (List.mem_filter.mp hi).2) hie) hjt

theorem bestMove_zero_of (b : Board)
    (h : ∀ i, b.get i = Piece.Empty → V (b.set i Piece.O) Piece.X 0 ≤ -1) :
    bestMove b = 0 := by
  unfold bestMove
  rw [pickOver_skip b _ _ (fun i _ hi => h i hi)]

theorem bestMove_spec (b : Board) (h : classify b = .NotFinished) (hv : -1 < V b Piece.O 1) :
    ∃ i, b.get i = Piece.Empty ∧ bestMove b = i.val ∧
      V (b.set i Piece.O) Piece.X 0 = V b Piece.O 1 := by
  have h1 : (pickOver b (List.finRange 9) (-1, 0)).1 = V b Piece.O 1 := by
    rw [pickOver_fst, V_notFinished b _ _ h]
    simp
  rcases pickOver_cases b (List.finRange 9) (-1, 0) with h2 | ⟨i, _, hie, h2, _⟩
  · rw [h2] at h1
    simp only at h1
    omega
  · refine ⟨i, hie, by simp [bestMove, h2], ?_⟩
    rw [h2] at h1
    exact h1

theorem moveCert_sound (b : Board) (j : Fin 9) (t : Int) (n : Nat)
    (h : moveCert b j t n = true) : bestMove b = j.val := by
  simp only [moveCert, Bool.and_eq_true, List.all_eq_true, Bool.or_eq_true, Piece.is_eq,
    decide_eq_true_eq, Bool.not_eq_true', decide_eq_false_iff_not] at h
  obtain ⟨⟨⟨hj, ht⟩, hge⟩, hall⟩ := h
  refine bestMove_eq_of b j t hj ht (geCheck_sound _ _ _ _ _ hge) ?_ ?_
  · intro i hij hie
    rcases hall i (List.mem_finRange i) with h1 | h1
    · exact absurd hie h1
    · simp only [hij, if_true] at h1
      have := leCheck_sound _ _ _ _ _ h1
      omega
  · intro i hij hie
    rcases hall i (List.mem_finRange i) with h1 | h1
    · exact absurd hie h1
    · simp only [not_lt.mpr (le_of_lt hij), hij, if_true, if_false] at h1
      exact leCheck_sound _ _ _ _ _ h1

/-! ## The automated player never loses -/

theorem readCell_ok (b : Board) (i : Nat) (p : Piece) (h : readCell b i = .ok p) :
    ∃ j : Fin 9, j.val = i ∧ b.get j = p := by
  unfold readCell at h
  split_ifs at h with hi
  exact ⟨⟨i, hi⟩, rfl, by simpa using h⟩

theorem writeCell_ok (b b1 : Board) (i : Nat) (p : Piece) (h : writeCell b i p = .ok b1) :
    ∃ j : Fin 9, j.val = i ∧ b1 = b.set j p := by
  unfold writeCell at h
  split_ifs at h with hi
  exact ⟨⟨i, hi⟩, rfl, by simpa using h.symm⟩

theorem classify_of_checkWin (b : Board) (w : WinState) (h : checkWin b = .ok w) :
    classify b = w := by
  rw [checkWin_eq] at h
  simpa using h

theorem human_step_value (b : Board) (i : Fin 9) (h : classify b = .NotFinished)
    (hi : b.get i = Piece.Empty) :
    V b Piece.X 0 ≤ V (b.set i Piece.X) Piece.O 1 := by
  rw [V_notFinished b _ _ h]
  exact bestOver_min_le_child b Piece.X _ _ i (List.mem_finRange i) hi

theorem reach_value (t : Turn) (b : Board) (h : Reach t b) : 0 ≤ V b t.piece t.flag := by
  induction h with
  | start => exact le_of_eq V_emptyBoard.symm
  | human b b1 i _ hc hr hw ih =>
    obtain ⟨j, hj, hje⟩ := readCell_ok _ _ _ hr
    obtain ⟨j2, hj2, rfl⟩ := writeCell_ok _ _ _ _ hw
    have : j2 = j := Fin.ext (hj2.trans hj.symm)
    subst this
    exact le_trans ih (human_step_value b j2 (classify_of_checkWin _ _ hc) hje)
  | computer b b1 b2 fuel move _ hc hg hw ih =>
    have h1 := getComputerMove_ok _ _ _ hg
    simp only [Prod.mk.injEq] at h1
    obtain ⟨hm, hb⟩ := h1
    rw [hm, hb] at hw
    have ih2 : 0 ≤ V b Piece.O 1 := ih
    obtain ⟨i, hie, hbm, hv⟩ := bestMove_spec b (classify_of_checkWin _ _ hc)
      (lt_of_lt_of_le (by decide) ih2)
    obtain ⟨j2, hj2, hb2⟩ := writeCell_ok _ _ _ _ hw
    have : j2 = i := Fin.ext (hj2.trans hbm)
    subst this
    show 0 ≤ V b2 Piece.X 0
    rw [hb2, hv]
    exact ih2

/-- C1: no board the game loop of `main` can hold has `checkWin() = XWin`,
whatever cells the human chooses: the automated player never loses. -/
theorem computer_never_loses (t : Turn) (b : Board) (h : Reach t b) :
    ∃ w, checkWin b = .ok w ∧ w ≠ WinState.XWin := by
  refine ⟨classify b, checkWin_eq b, fun hx => ?_⟩
  have h0 := reach_value t b h
  rw [V_finished b _ _ (by simp [hx]), hx] at h0
  simp [terminalScore] at h0

theorem computer_never_loses_witness :
    ∃ w, checkWin ⟨.Empty, .Empty, .Empty, .Empty, .X, .Empty, .Empty, .Empty, .Empty⟩ = .ok w ∧
      w ≠ WinState.XWin :=
  computer_never_loses .computer _
    (Reach.human emptyBoard _ 4 Reach.start (by rw [checkWin_eq]; rfl) rfl rfl)

/-! ## Claims on `minmax` and `getComputerMove` -/

theorem depthMeasure_le (b : Board) (p : Piece) : depthMeasure b p ≤ b.countEmpty + 1 := by
  unfold depthMeasure
  split_ifs <;> omega

theorem depthMeasure_mark (b : Board) (p : Piece) (h : p ≠ Piece.Empty) :
    depthMeasure b p = b.countEmpty := by
  simp [depthMeasure, h]

/-- C4: on the all-`Empty` board `minmax(X, 0)` returns `0`, the score of a
draw, for every depth budget above the nine `Empty` cells. -/
theorem minmax_emptyBoard_draw (fuel : Nat) (h : 9 < fuel) :
    minmax fuel Piece.X 0 emptyBoard = .ok (0, emptyBoard) := by
  rw [minmax_eq fuel emptyBoard Piece.X 0 (lt_of_le_of_lt (by decide) h), V_emptyBoard]

theorem minmax_emptyBoard_draw_witness :
    minmax 10 Piece.X 0 emptyBoard = .ok (0, emptyBoard) :=
  minmax_emptyBoard_draw 10 (by decide)

set_option maxRecDepth 100000 in
theorem bestMove_blockBoard : bestMove blockBoard = 2 :=
  moveCert_sound blockBoard 2 1 10 (by decide!)

/-- C6: on the board `[X,X,Empty, O,O,Empty, Empty,Empty,Empty]`
`getComputerMove()` returns `2`, for every depth budget of at least its five
`Empty` cells. -/
theorem getComputerMove_blocks (fuel : Nat) (h : 5 ≤ fuel) :
    getComputerMove fuel blockBoard = .ok (2, blockBoard) := by
  rw [getComputerMove_eq fuel blockBoard (le_trans (by decide) h), bestMove_blockBoard]

theorem getComputerMove_blocks_witness :
    getComputerMove 5 blockBoard = .ok (2, blockBoard) :=
  getComputerMove_blocks 5 (by decide)

set_option maxRecDepth 100000 in
theorem bestMove_lostBoard : bestMove lostBoard = 0 := by
  apply bestMove_zero_of
  have h : ((List.finRange 9).all fun i =>
      !(lostBoard.get i).is Piece.Empty || leCheck (-1) 10 (lostBoard.set i Piece.O) Piece.X 0)
      = true := by decide!
  intro i hi
  have := (List.all_eq_true.mp h) i (List.mem_finRange i)
  simp only [Bool.or_eq_true, Bool.not_eq_true', Piece.is_eq, decide_eq_false_iff_not] at this
  rcases this with h1 | h1
  · exact absurd hi h1
  · exact leCheck_sound _ _ _ _ _ h1

/-- C2 (as stated, refuted): the board `[X,Empty,X, O,X,O, Empty,Empty,Empty]`
is not finished, has four `Empty` cells and one more `X` than `O`, and on it
`getComputerMove()` returns `0`, a cell that holds `X`: every move of `O`
loses, so no trial score exceeds the initial `moveScore = -1` and `move`
keeps its initial value. -/
theorem getComputerMove_returns_marked_cell :
    checkWin lostBoard = .ok WinState.NotFinished ∧ readCell lostBoard 1 = .ok Piece.Empty ∧
    lostBoard.countPiece Piece.X = lostBoard.countPiece Piece.O + 1 ∧
    getComputerMove 4 lostBoard = .ok (0, lostBoard) ∧ readCell lostBoard 0 = .ok Piece.X ∧
    ¬ (∀ (b : Board) (fuel : Nat), (∃ i, b.get i = Piece.Empty) →
        b.countPiece Piece.X = b.countPiece Piece.O + 1 → b.countEmpty ≤ fuel →
        ∃ move, getComputerMove fuel b = .ok (move, b) ∧ readCell b move = .ok Piece.Empty) := by
  have hg : getComputerMove 4 lostBoard = .ok (0, lostBoard) := by
    rw [getComputerMove_eq 4 lostBoard (by decide), bestMove_lostBoard]
  refine ⟨by rw [checkWin_eq]; rfl, rfl, by decide, hg, rfl, fun h => ?_⟩
  obtain ⟨move, hm, hr⟩ := h lostBoard 4 ⟨1, rfl⟩ (by decide) (by decide)
  rw [hg] at hm
  simp only [Except.ok.injEq, Prod.mk.injEq, and_true] at hm
  rw [← hm, show readCell lostBoard 0 = .ok Piece.X from rfl] at hr
  exact absurd (Except.ok.inj hr) (by decide)

/-- C2 (amended): on every board on which some `Empty` cell has trial score
at least `0` (the trial score of a cell is what `minmax(X, 0)` returns on the
board with `O` placed there), `getComputerMove()` returns the index of an
`Empty` cell; and every board the play loop of `main` hands to
`getComputerMove()` has such a cell. -/
theorem getComputerMove_returns_empty_cell (b : Board) (fuel : Nat)
    (hf : b.countEmpty ≤ fuel) :
    ((∃ i s b1, b.get i = Piece.Empty ∧
        minmax fuel Piece.X 0 (b.set i Piece.O) = .ok (s, b1) ∧ 0 ≤ s) →
      ∃ move, getComputerMove fuel b = .ok (move, b) ∧ readCell b move = .ok Piece.Empty) ∧
    (Reach .computer b → checkWin b = .ok WinState.NotFinished →
      ∃ i s, b.get i = Piece.Empty ∧
        minmax fuel Piece.X 0 (b.set i Piece.O) = .ok (s, b.set i Piece.O) ∧ 0 ≤ s) := by
  constructor
  · rintro ⟨i0, s, b1, hi0, hs, hs0⟩
    have hs1 := minmax_ok _ _ _ _ _ hs
    simp only [Prod.mk.injEq] at hs1
    refine ⟨_, getComputerMove_eq fuel b hf, ?_⟩
    have hge : V (b.set i0 Piece.O) Piece.X 0 ≤ (pickOver b (List.finRange 9) (-1, 0)).1 := by
      rw [pickOver_fst]
      exact bestOver_max_ge_child b Piece.O 1 (by decide) _ _ i0 (List.mem_finRange i0) hi0
    rcases pickOver_cases b (List.finRange 9) (-1, 0) with h2 | ⟨i, _, hie, h2, _⟩
    · rw [h2] at hge
      simp only at hge
      omega
    · simp only [bestMove, h2, readCell_fin, hie]
  · intro hr hc
    obtain ⟨i, hie, _, hv⟩ := bestMove_spec b (classify_of_checkWin _ _ hc)
      (lt_of_lt_of_le (by decide) (reach_value _ b hr))
    refine ⟨i, _, hie, minmax_eq _ _ _ _ (by have := depthMeasure_trial b i hie; omega), ?_⟩
    rw [hv]
    exact reach_value _ b hr

theorem getComputerMove_returns_empty_cell_witness :
    (∃ move, getComputerMove 5 blockBoard = .ok (move, blockBoard) ∧
      readCell blockBoard move = .ok Piece.Empty) ∧
    (∃ i s, Board.get ⟨.Empty, .Empty, .Empty, .Empty, .X, .Empty, .Empty, .Empty, .Empty⟩ i =
        Piece.Empty ∧
      minmax 8 Piece.X 0
          (Board.set ⟨.Empty, .Empty, .Empty, .Empty, .X, .Empty, .Empty, .Empty, .Empty⟩
            i Piece.O) =
        .ok (s, Board.set ⟨.Empty, .Empty, .Empty, .Empty, .X, .Empty, .Empty, .Empty, .Empty⟩
          i Piece.O) ∧ 0 ≤ s) :=
  ⟨(getComputerMove_returns_empty_cell blockBoard 5 (by decide)).1
      ⟨5, 1, _, rfl, by
        rw [minmax_eq 5 (blockBoard.set 5 Piece.O) Piece.X 0 (by decide),
          V_finished _ _ _ (by decide)]
        rfl, by decide⟩,
   (getComputerMove_returns_empty_cell _ 8 (by decide)).2
      (Reach.human emptyBoard _ 4 Reach.start (by rw [checkWin_eq]; rfl) rfl rfl)
      (by rw [checkWin_eq]; rfl)⟩

/-- C3: `minmax` and `getComputerMove` leave the board as they found it:
every run that returns hands back the board it was given, for every board,
piece and flag; and with a depth budget above the number of `Empty` cells
plus one the run does return. -/
theorem board_restored (b : Board) (p : Piece) (m : Int) (fuel : Nat) :
    (∀ r, minmax fuel p m b = .ok r → r.2 = b) ∧
    (∀ r, getComputerMove fuel b = .ok r → r.2 = b) ∧
    (b.countEmpty + 1 < fuel →
      (∃ v, minmax fuel p m b = .ok (v, b)) ∧ (∃ mv, getComputerMove fuel b = .ok (mv, b))) := by
  refine ⟨fun r hr => ?_, fun r hr => ?_, fun h => ⟨⟨_, minmax_eq fuel b p m ?_⟩,
    ⟨_, getComputerMove_eq fuel b ?_⟩⟩⟩
  · rw [minmax_ok _ _ _ _ _ hr]
  · rw [getComputerMove_ok _ _ _ hr]
  · exact lt_of_le_of_lt (depthMeasure_le b p) h
  · omega

theorem board_restored_witness :
    ((V blockBoard Piece.O 1, blockBoard) : Int × Board).2 = blockBoard ∧
    ((bestMove blockBoard, blockBoard) : Nat × Board).2 = blockBoard ∧
    ((∃ v, minmax 7 Piece.O 1 blockBoard = .ok (v, blockBoard)) ∧
      (∃ mv, getComputerMove 7 blockBoard = .ok (mv, blockBoard))) :=
  ⟨(board_restored blockBoard Piece.O 1 7).1 _ (minmax_eq 7 blockBoard Piece.O 1 (by decide)),
   (board_restored blockBoard Piece.O 1 7).2.1 _ (getComputerMove_eq 7 blockBoard (by decide)),
   (board_restored blockBoard Piece.O 1 7).2.2 (by decide)⟩

theorem bestOver_range (b : Board) (p : Piece) (m : Int) (l : List (Fin 9)) (init : Int)
    (h0 : -1 ≤ init ∧ init ≤ 1)
    (hc : ∀ i ∈ l, b.get i = Piece.Empty →
      -1 ≤ V (b.set i p) (opposite p) (lnot m) ∧ V (b.set i p) (opposite p) (lnot m) ≤ 1) :
    -1 ≤ bestOver b p m l init ∧ bestOver b p m l init ≤ 1 := by
  induction l generalizing init with
  | nil => simpa [bestOver] using h0
  | cons j rest ih =>
    rw [bestOver_cons]
    apply ih
    · split_ifs with hj
      · have := hc j (List.mem_cons_self _ _) hj
        unfold combine
        split_ifs
        · exact ⟨le_trans h0.1 (le_max_left _ _), max_le h0.2 this.2⟩
        · exact ⟨le_min h0.1 this.1, le_trans (min_le_left _ _) h0.2⟩
      · exact h0
    · exact fun i hi => hc i (List.mem_cons_of_mem _ hi)

theorem V_range_aux (n : Nat) (b : Board) (p : Piece) (m : Int) (h : depthMeasure b p < n) :
    -1 ≤ V b p m ∧ V b p m ≤ 1 := by
  induction n generalizing b p m with
  | zero => omega
  | succ n ih =>
    rw [V_eq]
    cases hc : classify b with
    | XWin => simp
    | OWin => simp
    | Draw => simp
    | NotFinished =>
      refine bestOver_range b p m _ _ (by split_ifs <;> decide) (fun i _ hi => ih _ _ _ ?_)
      have := depthMeasure_child b i p hi
      omega

theorem V_range (b : Board) (p : Piece) (m : Int) : -1 ≤ V b p m ∧ V b p m ≤ 1 :=
  V_range_aux _ b p m (Nat.lt_succ_self _)

theorem checkWin_of_value_one (b : Board) (p : Piece) (m : Int) (h : V b p m = 1) :
    checkWin b = .ok WinState.OWin ∨ classify b = WinState.NotFinished := by
  rw [checkWin_eq]
  rw [V_eq] at h
  cases hc : classify b <;> simp_all

theorem exists_empty_of_notFinished (b : Board) (h : classify b = .NotFinished) :
    ∃ i, b.get i = Piece.Empty := by
  by_contra hne
  have h0 : b.countEmpty = 0 := (b.countEmpty_eq_zero).mpr (fun i hi => hne ⟨i, hi⟩)
  unfold classify at h
  split_ifs at h

theorem countEmpty_mark (b : Board) (i : Fin 9) (p : Piece) (hp : p ≠ Piece.Empty)
    (h : b.get i = Piece.Empty) : (b.set i p).countEmpty < b.countEmpty := by
  have := b.countEmpty_set i p h
  have hs : p.space = 0 := (Piece.space_eq_zero p).mpr hp
  omega

theorem wins_of_value_one (n : Nat) (b : Board) (hn : b.countEmpty = n) :
    (V b Piece.O 1 = 1 → WinsFrom .computer b) ∧ (V b Piece.X 0 = 1 → WinsFrom .human b) := by
  induction n using Nat.strong_induction_on generalizing b with
  | _ n ih =>
    constructor
    · intro hv
      rcases checkWin_of_value_one b _ _ hv with hw | hnf
      · exact WinsFrom.won _ _ hw
      · obtain ⟨i, hie, hbm, hvi⟩ := bestMove_spec b hnf (by rw [hv]; decide)
        have hlt := countEmpty_mark b i Piece.O (by decide) hie
        have hchild := (ih _ (hn ▸ hlt) (b.set i Piece.O) rfl).2 (hvi.trans hv)
        refine WinsFrom.computer b (by rw [checkWin_eq, hnf])
          ⟨b.countEmpty, bestMove b, b, b.set i Piece.O,
            getComputerMove_eq _ b (le_refl _), by rw [hbm]; exact writeCell_fin _ _ _⟩ ?_
        intro fuel move b1 b2 hg hw
        have h1 := getComputerMove_ok _ _ _ hg
        simp only [Prod.mk.injEq] at h1
        rw [h1.1, h1.2] at hw
        obtain ⟨j, hj, hb2⟩ := writeCell_ok _ _ _ _ hw
        have : j = i := Fin.ext (hj.trans hbm)
        rw [hb2, this]
        exact hchild
    · intro hv
      rcases checkWin_of_value_one b _ _ hv with hw | hnf
      · exact WinsFrom.won _ _ hw
      · obtain ⟨i0, hi0⟩ := exists_empty_of_notFinished b hnf
        refine WinsFrom.human b (by rw [checkWin_eq, hnf]) ⟨i0.val, by simp [hi0]⟩ ?_
        intro i b1 hr hw
        obtain ⟨j, hj, hje⟩ := readCell_ok _ _ _ hr
        obtain ⟨j2, hj2, hb1⟩ := writeCell_ok _ _ _ _ hw
        have : j2 = j := Fin.ext (hj2.trans hj.symm)
        rw [hb1, this]
        have hlt := countEmpty_mark b j Piece.X (by decide) hje
        have h1 := human_step_value b j hnf hje
        have h2 := (V_range (b.set j Piece.X) Piece.O 1).2
        exact (ih _ (hn ▸ hlt) (b.set j Piece.X) rfl).1 (by omega)

/-- C5: from every board the game loop of `main` can hold at the computer's
turn on which `minmax(O, 1)` returns `1`, every continuation of the game (any
accepted human moves, computer moves by `getComputerMove()`) ends on a board
with `checkWin() = OWin`, passing only through `NotFinished` boards: never
`Draw` or `XWin`. -/
theorem forced_win_converted (b b1 : Board) (fuel : Nat) (_hr : Reach .computer b)
    (hv : minmax fuel Piece.O 1 b = .ok (1, b1)) : WinsFrom .computer b := by
  have h1 := minmax_ok _ _ _ _ _ hv
  simp only [Prod.mk.injEq] at h1
  exact (wins_of_value_one _ b rfl).1 h1.1.symm

set_option maxRecDepth 100000 in
theorem bestMove_after_one :
    bestMove ⟨.Empty, .X, .Empty, .Empty, .Empty, .Empty, .Empty, .Empty, .Empty⟩ = 0 :=
  moveCert_sound _ 0 0 10 (by decide!)

theorem reach_blunderBoard : Reach .computer blunderBoard :=
  Reach.human ⟨.O, .X, .Empty, .Empty, .Empty, .Empty, .Empty, .Empty, .Empty⟩ _ 2
    (Reach.computer ⟨.Empty, .X, .Empty, .Empty, .Empty, .Empty, .Empty, .Empty, .Empty⟩
      ⟨.Empty, .X, .Empty, .Empty, .Empty, .Empty, .Empty, .Empty, .Empty⟩ _ 8 0
      (Reach.human emptyBoard _ 1 Reach.start (by rw [checkWin_eq]; rfl) rfl rfl)
      (by rw [checkWin_eq]; rfl)
      (by rw [getComputerMove_eq 8 _ (by decide), bestMove_after_one]) rfl)
    (by rw [checkWin_eq]; rfl) rfl rfl

set_option maxRecDepth 100000 in
theorem V_blunderBoard : V blunderBoard Piece.O 1 = 1 :=
  le_antisymm (V_range _ _ _).2 (geCheck_sound 1 10 _ _ _ (by decide!))

theorem forced_win_converted_witness :
    Reach .computer blunderBoard ∧
    minmax 7 Piece.O 1 blunderBoard = .ok (1, blunderBoard) ∧
    WinsFrom .computer blunderBoard :=
  have hv : minmax 7 Piece.O 1 blunderBoard = .ok (1, blunderBoard) := by
    rw [minmax_eq 7 blunderBoard Piece.O 1 (by decide), V_blunderBoard]
  ⟨reach_blunderBoard, hv, forced_win_converted _ _ 7 reach_blunderBoard hv⟩

/-- Remark on the depth bound of `minmax`: its hypothesis that the piece is
`X` or `O` cannot be dropped.  With `piece = Empty`, a value no call of the
program passes, the write `board[i] = piece` leaves the cell `Empty` and the
recursion goes one call deeper: on `[X,O,X, X,O,O, O,X,Empty]` a budget of
the outer call plus one nested call is exhausted. -/
theorem minmax_empty_piece_deeper :
    oneGapBoard.countEmpty = 1 ∧
    (oneGapBoard.set 8 Piece.Empty).countEmpty = oneGapBoard.countEmpty ∧
    minmax (oneGapBoard.countEmpty + 1) Piece.Empty 0 oneGapBoard = .error Fault.outOfFuel ∧
    ¬ (∀ (b : Board) (p : Piece) (m : Int) (fuel : Nat),
        b.countEmpty < fuel → ∃ r, minmax fuel p m b = .ok r) := by
  have h3 : minmax (oneGapBoard.countEmpty + 1) Piece.Empty 0 oneGapBoard =
      .error Fault.outOfFuel := by rfl
  refine ⟨by decide, by decide, h3, fun h => ?_⟩
  obtain ⟨r, hr⟩ := h oneGapBoard Piece.Empty 0 (oneGapBoard.countEmpty + 1) (Nat.lt_succ_self _)
  rw [h3] at hr
  cases hr

/-- C10: `minmax` and `getComputerMove` are total.  For every board, piece
and flag the recursion of `minmax` terminates: a depth budget of the number
of `Empty` cells plus two always returns a value.  Every recursive call is
made with the piece `X` or `O`, as are the calls from `getComputerMove`; with
such a piece each recursive call is made on a board with strictly fewer
`Empty` cells, so the depth is at most the number of `Empty` cells (a budget
of the outer call plus that many nested calls returns a value).  And
`getComputerMove` returns a value on every board, reaching no fault: no
out-of-range index, no exhausted budget. -/
theorem minmax_total (b : Board) (p : Piece) (m : Int) (fuel : Nat) :
    opposite p ≠ Piece.Empty ∧
    (p ≠ Piece.Empty →
      (∀ i, b.get i = Piece.Empty → (b.set i p).countEmpty < b.countEmpty) ∧
      (b.countEmpty < fuel → ∃ v, minmax fuel p m b = .ok (v, b))) ∧
    (b.countEmpty + 1 < fuel → ∃ v, minmax fuel p m b = .ok (v, b)) ∧
    (b.countEmpty ≤ fuel → ∃ move, getComputerMove fuel b = .ok (move, b)) := by
  refine ⟨opposite_ne_empty p, fun hp => ⟨fun i hi => countEmpty_mark b i p hp hi, fun h => ?_⟩,
    fun h => ?_, fun h => ⟨_, getComputerMove_eq fuel b h⟩⟩
  · exact ⟨_, minmax_eq fuel b p m (by rw [depthMeasure_mark b p hp]; exact h)⟩
  · exact ⟨_, minmax_eq fuel b p m (lt_of_le_of_lt (depthMeasure_le b p) h)⟩

theorem minmax_total_witness :
    ((∀ i, oneGapBoard.get i = Piece.Empty →
        (oneGapBoard.set i Piece.X).countEmpty < oneGapBoard.countEmpty) ∧
      (∃ v, minmax 2 Piece.X 0 oneGapBoard = .ok (v, oneGapBoard))) ∧
    (∃ v, minmax 3 Piece.Empty 0 oneGapBoard = .ok (v, oneGapBoard)) ∧
    (∃ move, getComputerMove 1 oneGapBoard = .ok (move, oneGapBoard)) :=
  ⟨⟨((minmax_total oneGapBoard Piece.X 0 2).2.1 (by decide)).1,
    ((minmax_total oneGapBoard Piece.X 0 2).2.1 (by decide)).2 (by decide)⟩,
   (minmax_total oneGapBoard Piece.Empty 0 3).2.2.1 (by decide),
   (minmax_total oneGapBoard Piece.X 0 1).2.2.2 (by decide)⟩

/-! ## Scores, terminal boards, reset and precedence -/

/-- C11: `minmax` returns a value in `{-1, 0, 1}`: for every board, piece and
flag, every run that returns gives one of the three scores, and with a depth
budget above the number of `Empty` cells plus one the run does return. -/
theorem minmax_score_range (b : Board) (p : Piece) (m : Int) (fuel : Nat) :
    (∀ r, minmax fuel p m b = .ok r → r.1 = -1 ∨ r.1 = 0 ∨ r.1 = 1) ∧
    (b.countEmpty + 1 < fuel →
      ∃ v, minmax fuel p m b = .ok (v, b) ∧ (v = -1 ∨ v = 0 ∨ v = 1)) := by
  have hV : V b p m = -1 ∨ V b p m = 0 ∨ V b p m = 1 := by
    have := V_range b p m
    omega
  constructor
  · intro r hr
    rw [minmax_ok _ _ _ _ _ hr]
    exact hV
  · intro h
    exact ⟨_, minmax_eq fuel b p m (lt_of_le_of_lt (depthMeasure_le b p) h), hV⟩

theorem minmax_score_range_witness :
    (V blockBoard Piece.O 1 = -1 ∨ V blockBoard Piece.O 1 = 0 ∨ V blockBoard Piece.O 1 = 1) ∧
    ∃ v, minmax 7 Piece.O 1 blockBoard = .ok (v, blockBoard) ∧ (v = -1 ∨ v = 0 ∨ v = 1) :=
  ⟨(minmax_score_range blockBoard Piece.O 1 7).1 (V blockBoard Piece.O 1, blockBoard)
      (minmax_eq 7 blockBoard Piece.O 1 (by decide)),
   (minmax_score_range blockBoard Piece.O 1 7).2 (by decide)⟩

/-- C12: on a board with `checkWin()` different from `NotFinished`, for every
piece and flag, `minmax` returns `-1` for `XWin`, `+1` for `OWin` and `0` for
`Draw`, leaving the board as it is; a depth budget of the outer call alone is
enough, so no move is explored. -/
theorem minmax_terminal_score (b : Board) (p : Piece) (m : Int) (fuel : Nat) (hf : 0 < fuel) :
    (checkWin b = .ok WinState.XWin → minmax fuel p m b = .ok (-1, b)) ∧
    (checkWin b = .ok WinState.OWin → minmax fuel p m b = .ok (1, b)) ∧
    (checkWin b = .ok WinState.Draw → minmax fuel p m b = .ok (0, b)) := by
  obtain ⟨n, rfl⟩ : ∃ n, fuel = n + 1 := ⟨fuel - 1, by omega⟩
  refine ⟨fun h => ?_, fun h => ?_, fun h => ?_⟩ <;>
    simp only [minmax, h, bind, Except.bind, pure, Except.pure]

theorem minmax_terminal_score_witness :
    minmax 1 Piece.O 1 ⟨.X, .X, .X, .O, .O, .Empty, .Empty, .Empty, .Empty⟩ =
      .ok (-1, ⟨.X, .X, .X, .O, .O, .Empty, .Empty, .Empty, .Empty⟩) ∧
    minmax 1 Piece.X 0 ⟨.X, .X, .Empty, .O, .O, .O, .X, .Empty, .Empty⟩ =
      .ok (1, ⟨.X, .X, .Empty, .O, .O, .O, .X, .Empty, .Empty⟩) ∧
    minmax 1 Piece.Empty 5 ⟨.X, .O, .X, .X, .O, .O, .O, .X, .X⟩ =
      .ok (0, ⟨.X, .O, .X, .X, .O, .O, .O, .X, .X⟩) :=
  ⟨(minmax_terminal_score _ _ _ 1 (by decide)).1 (by rw [checkWin_eq]; rfl),
   (minmax_terminal_score _ _ _ 1 (by decide)).2.1 (by rw [checkWin_eq]; rfl),
   (minmax_terminal_score _ _ _ 1 (by decide)).2.2 (by rw [checkWin_eq]; rfl)⟩

theorem resetGame_eq (b : Board) : resetGame b = .ok emptyBoard := by
  obtain ⟨a0, a1, a2, a3, a4, a5, a6, a7, a8⟩ := b
  rfl

/-- C13: after `resetGame()`, whatever the board held before, all nine cells
are `Empty` and `checkWin()` returns `NotFinished`; the board it leaves is the
board every game of the play loop of `main` starts from. -/
theorem resetGame_empties (b : Board) :
    ∃ b1, resetGame b = .ok b1 ∧ (∀ i : Fin 9, readCell b1 i.val = .ok Piece.Empty) ∧
      (∀ i : Fin 9, b1.get i = Piece.Empty) ∧
      checkWin b1 = .ok WinState.NotFinished ∧ Reach .human b1 := by
  refine ⟨emptyBoard, resetGame_eq b, fun i => ?_, fun i => ?_, ?_, Reach.start⟩
  · rw [readCell_fin]
    fin_cases i <;> rfl
  · fin_cases i <;> rfl
  · rw [checkWin_eq]
    rfl

/-- C17: on every board with a line fully marked with `X`, `checkWin` returns
`XWin`, also when a line is fully marked with `O` and whatever the number of
`Empty` cells; `OWin` is returned only when no line is fully marked with `X`
(and then some line is fully marked with `O`). -/
theorem checkWin_precedence (b : Board) :
    (b.hasLine Piece.X → checkWin b = .ok WinState.XWin) ∧
    (checkWin b = .ok WinState.OWin → ¬ b.hasLine Piece.X ∧ b.hasLine Piece.O) := by
  rw [checkWin_eq]
  constructor
  · intro hX
    simp [classify, hX]
  · intro h
    simp only [Except.ok.injEq] at h
    unfold classify at h
    split_ifs at h with h1 h2
    exact ⟨h1, h2⟩

theorem checkWin_precedence_witness :
    checkWin ⟨.X, .X, .X, .O, .O, .O, .Empty, .Empty, .Empty⟩ = .ok WinState.XWin ∧
    (¬ Board.hasLine ⟨.X, .X, .Empty, .O, .O, .O, .X, .Empty, .Empty⟩ Piece.X ∧
      Board.hasLine ⟨.X, .X, .Empty, .O, .O, .O, .X, .Empty, .Empty⟩ Piece.O) :=
  ⟨(checkWin_precedence _).1 (by decide),
   (checkWin_precedence _).2 (by rw [checkWin_eq]; rfl)⟩


/-! ## The recursion of `minmax` against the minimax definition -/

theorem foldr_max_init (vals : List Int) (a x : Int) :
    vals.foldr max (max a x) = max (vals.foldr max a) x := by
  induction vals with
  | nil => rfl
  | cons v rest ih => simp only [List.foldr_cons, ih, max_assoc]

theorem foldr_min_init (vals : List Int) (a x : Int) :
    vals.foldr min (min a x) = min (vals.foldr min a) x := by
  induction vals with
  | nil => rfl
  | cons v rest ih => simp only [List.foldr_cons, ih, min_assoc]

theorem foldl_max_eq_foldr (f : Fin 9 → Int) (c : Fin 9 → Prop) [DecidablePred c]
    (l : List (Fin 9)) (init : Int) :
    l.foldl (fun best i => if c i then max best (f i) else best) init =
      (l.filterMap fun i => if c i then some (f i) else none).foldr max init := by
  induction l generalizing init with
  | nil => rfl
  | cons i rest ih =>
    by_cases hi : c i
    · have e : ((i :: rest).filterMap fun i => if c i then some (f i) else none) =
          f i :: rest.filterMap fun i => if c i then some (f i) else none := by
        simp [List.filterMap_cons, hi]
      simp only [List.foldl_cons, hi, if_true]
      rw [ih, e, List.foldr_cons, foldr_max_init]
      exact max_comm _ _
    · have e : ((i :: rest).filterMap fun i => if c i then some (f i) else none) =
          rest.filterMap fun i => if c i then some (f i) else none := by
        simp [List.filterMap_cons, hi]
      simp only [List.foldl_cons, hi, if_false]
      rw [ih, e]

theorem foldl_min_eq_foldr (f : Fin 9 → Int) (c : Fin 9 → Prop) [DecidablePred c]
    (l : List (Fin 9)) (init : Int) :
    l.foldl (fun best i => if c i then min best (f i) else best) init =
      (l.filterMap fun i => if c i then some (f i) else none).foldr min init := by
  induction l generalizing init with
  | nil => rfl
  | cons i rest ih =>
    by_cases hi : c i
    · have e : ((i :: rest).filterMap fun i => if c i then some (f i) else none) =
          f i :: rest.filterMap fun i => if c i then some (f i) else none := by
        simp [List.filterMap_cons, hi]
      simp only [List.foldl_cons, hi, if_true]
      rw [ih, e, List.foldr_cons, foldr_min_init]
      exact min_comm _ _
    · have e : ((i :: rest).filterMap fun i => if c i then some (f i) else none) =
          rest.filterMap fun i => if c i then some (f i) else none := by
        simp [List.filterMap_cons, hi]
      simp only [List.foldl_cons, hi, if_false]
      rw [ih, e]

theorem minimaxValue_eq (b : Board) (p : Piece) (m : Int) :
    minimaxValue b p m = match classify b with
      | .XWin => -1
      | .OWin => 1
      | .Draw => 0
      | .NotFinished =>
        if m ≠ 0 then
          ((List.finRange 9).filterMap fun i =>
            if b.get i = Piece.Empty then
              some (minimaxValue (b.set i p) (opposite p) (lnot m)) else none).foldr max (-1)
        else
          ((List.finRange 9).filterMap fun i =>
            if b.get i = Piece.Empty then
              some (minimaxValue (b.set i p) (opposite p) (lnot m)) else none).foldr min 1 := by
  rw [minimaxValue, checkWin_eq]
  cases classify b <;> simp only [dite_eq_ite]

theorem minimaxValue_eq_V_aux (n : Nat) (b : Board) (p : Piece) (m : Int)
    (h : depthMeasure b p < n) : minimaxValue b p m = V b p m := by
  induction n generalizing b p m with
  | zero => omega
  | succ n ih =>
    rw [minimaxValue_eq, V_eq]
    cases hc : classify b with
    | XWin => rfl
    | OWin => rfl
    | Draw => rfl
    | NotFinished =>
      have hkids : ((List.finRange 9).filterMap fun i =>
            if b.get i = Piece.Empty then
              some (minimaxValue (b.set i p) (opposite p) (lnot m)) else none) =
          ((List.finRange 9).filterMap fun i =>
            if b.get i = Piece.Empty then
              some (V (b.set i p) (opposite p) (lnot m)) else none) := by
        apply List.filterMap_congr
        intro i _
        by_cases hi : b.get i = Piece.Empty
        · have := depthMeasure_child b i p hi
          rw [if_pos hi, if_pos hi, ih (b.set i p) (opposite p) (lnot m) (by omega)]
        · rw [if_neg hi, if_neg hi]
      rw [hkids]
      simp only [bestOver, combine]
      by_cases hm : m ≠ 0
      · simp only [ne_eq, hm, not_false_eq_true, if_true]
        exact (foldl_max_eq_foldr _ _ _ _).symm
      · have hm0 : m = 0 := by simpa using hm
        subst hm0
        simp only [ne_eq, not_true_eq_false, if_false]
        exact (foldl_min_eq_foldr _ _ _ _).symm

theorem minimaxValue_eq_V (b : Board) (p : Piece) (m : Int) : minimaxValue b p m = V b p m :=
  minimaxValue_eq_V_aux _ b p m (Nat.lt_succ_self _)

/-- C14: the mutate-recurse-restore `minmax` over the shared board computes
the minimax definition on immutable boards: for every board, piece and flag,
every run that returns gives `minimaxValue b p m`, and with a depth budget
above the number of `Empty` cells plus one the run returns it, on the board it
was given. -/
theorem minmax_refines_minimaxValue (b : Board) (p : Piece) (m : Int) (fuel : Nat) :
    (∀ r, minmax fuel p m b = .ok r → r.1 = minimaxValue b p m) ∧
    (b.countEmpty + 1 < fuel → minmax fuel p m b = .ok (minimaxValue b p m, b)) := by
  rw [minimaxValue_eq_V]
  constructor
  · intro r hr
    rw [minmax_ok _ _ _ _ _ hr]
  · intro h
    exact minmax_eq fuel b p m (lt_of_le_of_lt (depthMeasure_le b p) h)

theorem minmax_refines_minimaxValue_witness :
    ((V blockBoard Piece.O 1, blockBoard) : Int × Board).1 = minimaxValue blockBoard Piece.O 1 ∧
    minmax 7 Piece.O 1 blockBoard = .ok (minimaxValue blockBoard Piece.O 1, blockBoard) :=
  ⟨(minmax_refines_minimaxValue blockBoard Piece.O 1 7).1 _
      (minmax_eq 7 blockBoard Piece.O 1 (by decide)),
   (minmax_refines_minimaxValue blockBoard Piece.O 1 7).2 (by decide)⟩


/-! ## The choice of `getComputerMove` -/

theorem trial_eq (b : Board) (i : Fin 9) (fuel : Nat) (hf : b.countEmpty ≤ fuel)
    (hi : b.get i = Piece.Empty) :
    minmax fuel Piece.X 0 (b.set i Piece.O) =
      .ok (V (b.set i Piece.O) Piece.X 0, b.set i Piece.O) :=
  minmax_eq _ _ _ _ (by have := depthMeasure_trial b i hi; omega)

theorem exists_first_maximum (b : Board) (h : ∃ i, b.get i = Piece.Empty) :
    ∃ j, b.get j = Piece.Empty ∧
      (∀ i, b.get i = Piece.Empty →
        V (b.set i Piece.O) Piece.X 0 ≤ V (b.set j Piece.O) Piece.X 0) ∧
      (∀ i, i < j → b.get i = Piece.Empty →
        V (b.set i Piece.O) Piece.X 0 < V (b.set j Piece.O) Piece.X 0) := by
  obtain ⟨i0, hi0⟩ := h
  have hS : (Finset.univ.filter fun i : Fin 9 => b.get i = Piece.Empty).Nonempty :=
    ⟨i0, by simp [hi0]⟩
  obtain ⟨j0, hj0, hmax⟩ := Finset.exists_max_image _
    (fun i : Fin 9 => V (b.set i Piece.O) Piece.X 0) hS
  have hj0e : b.get j0 = Piece.Empty := by simpa using hj0
  have hA : (Finset.univ.filter fun i : Fin 9 => b.get i = Piece.Empty ∧
      V (b.set i Piece.O) Piece.X 0 = V (b.set j0 Piece.O) Piece.X 0).Nonempty :=
    ⟨j0, by simp [hj0e]⟩
  have hmem := Finset.min'_mem _ hA
  simp only [Finset.mem_filter, Finset.mem_univ, true_and] at hmem
  refine ⟨_, hmem.1, fun i hi => ?_, fun i hij hi => ?_⟩
  · rw [hmem.2]
    exact hmax i (by simp [hi])
  · rw [hmem.2]
    refine lt_of_le_of_ne (hmax i (by simp [hi])) (fun heq => ?_)
    have hiA : i ∈ Finset.univ.filter fun i : Fin 9 => b.get i = Piece.Empty ∧
        V (b.set i Piece.O) Piece.X 0 = V (b.set j0 Piece.O) Piece.X 0 := by
      simp [hi, heq]
    exact absurd hij (not_lt.mpr (Finset.min'_le _ i hiA))

/-- C15: on every board with an `Empty` cell of trial score at least `0`
(the trial score of a cell is what `minmax(X, 0)` returns on the board with
`O` placed there), `getComputerMove()` returns an `Empty` cell whose trial
score is the maximum over the `Empty` cells and strictly above the trial
score of every `Empty` cell of smaller index: the smallest index among the
cells of maximum trial score. -/
theorem getComputerMove_first_maximum (b : Board) (fuel : Nat) (hf : b.countEmpty ≤ fuel)
    (h : ∃ i s b1, b.get i = Piece.Empty ∧
      minmax fuel Piece.X 0 (b.set i Piece.O) = .ok (s, b1) ∧ 0 ≤ s) :
    ∃ j sj, b.get j = Piece.Empty ∧
      minmax fuel Piece.X 0 (b.set j Piece.O) = .ok (sj, b.set j Piece.O) ∧
      getComputerMove fuel b = .ok (j.val, b) ∧
      ∀ i, b.get i = Piece.Empty →
        ∃ si, minmax fuel Piece.X 0 (b.set i Piece.O) = .ok (si, b.set i Piece.O) ∧
          si ≤ sj ∧ (i < j → si < sj) := by
  obtain ⟨i0, s, b1, hi0, hs, hs0⟩ := h
  have hs1 := minmax_ok _ _ _ _ _ hs
  simp only [Prod.mk.injEq] at hs1
  obtain ⟨j, hj, hmax, hfirst⟩ := exists_first_maximum b ⟨i0, hi0⟩
  have hpos : -1 < V (b.set j Piece.O) Piece.X 0 := by
    have := hmax i0 hi0
    omega
  refine ⟨j, _, hj, trial_eq b j fuel hf hj, ?_, fun i hi =>
    ⟨_, trial_eq b i fuel hf hi, hmax i hi, fun hij => hfirst i hij hi⟩⟩
  rw [getComputerMove_eq fuel b hf,
    bestMove_eq_of b j _ hj hpos (le_refl _) hfirst (fun i _ hi => hmax i hi)]

theorem V_blockBoard_two : V (blockBoard.set 2 Piece.O) Piece.X 0 = 1 :=
  le_antisymm (V_range _ _ _).2 (geCheck_sound 1 10 _ _ _ (by decide!))

theorem V_blockBoard_five : V (blockBoard.set 5 Piece.O) Piece.X 0 = 1 :=
  le_antisymm (V_range _ _ _).2 (geCheck_sound 1 10 _ _ _ (by decide!))

theorem V_blockBoard_six : V (blockBoard.set 6 Piece.O) Piece.X 0 = -1 :=
  le_antisymm (leCheck_sound (-1) 10 _ _ _ (by decide!)) (V_range _ _ _).1

theorem V_blockBoard_seven : V (blockBoard.set 7 Piece.O) Piece.X 0 = -1 :=
  le_antisymm (leCheck_sound (-1) 10 _ _ _ (by decide!)) (V_range _ _ _).1

theorem V_blockBoard_eight : V (blockBoard.set 8 Piece.O) Piece.X 0 = -1 :=
  le_antisymm (leCheck_sound (-1) 10 _ _ _ (by decide!)) (V_range _ _ _).1

theorem getComputerMove_first_maximum_witness :
    ∃ j sj, blockBoard.get j = Piece.Empty ∧
      minmax 5 Piece.X 0 (blockBoard.set j Piece.O) = .ok (sj, blockBoard.set j Piece.O) ∧
      getComputerMove 5 blockBoard = .ok (j.val, blockBoard) ∧
      ∀ i, blockBoard.get i = Piece.Empty →
        ∃ si, minmax 5 Piece.X 0 (blockBoard.set i Piece.O) =
            .ok (si, blockBoard.set i Piece.O) ∧
          si ≤ sj ∧ (i < j → si < sj) :=
  getComputerMove_first_maximum blockBoard 5 (by decide)
    ⟨2, 1, _, rfl, by rw [trial_eq blockBoard 2 5 (by decide) rfl, V_blockBoard_two],
      by decide⟩

/-- C16: on every board the play loop of `main` can hold when the computer is
asked to move (after the human's write, the board still `NotFinished`),
`getComputerMove()` returns, and the index it returns is that of an `Empty`
cell of the board: the write `board[move] = O` overwrites no mark. -/
theorem computer_move_on_empty_cell (b : Board) (h : Reach .computer b)
    (hc : checkWin b = .ok WinState.NotFinished) :
    (∃ fuel move, getComputerMove fuel b = .ok (move, b)) ∧
    ∀ fuel move b1, getComputerMove fuel b = .ok (move, b1) →
      b1 = b ∧ readCell b1 move = .ok Piece.Empty := by
  obtain ⟨i, hie, hbm, _⟩ := bestMove_spec b (classify_of_checkWin _ _ hc)
    (lt_of_lt_of_le (by decide) (reach_value _ b h))
  refine ⟨⟨b.countEmpty, _, getComputerMove_eq _ b (le_refl _)⟩, fun fuel move b1 hg => ?_⟩
  have h1 := getComputerMove_ok _ _ _ hg
  simp only [Prod.mk.injEq] at h1
  rw [h1.1, h1.2, hbm, readCell_fin, hie]
  exact ⟨rfl, rfl⟩

theorem computer_move_on_empty_cell_witness :
    (∃ fuel move, getComputerMove fuel
        ⟨.Empty, .Empty, .Empty, .Empty, .X, .Empty, .Empty, .Empty, .Empty⟩ =
      .ok (move, ⟨.Empty, .Empty, .Empty, .Empty, .X, .Empty, .Empty, .Empty, .Empty⟩)) ∧
    ∀ fuel move b1, getComputerMove fuel
        ⟨.Empty, .Empty, .Empty, .Empty, .X, .Empty, .Empty, .Empty, .Empty⟩ = .ok (move, b1) →
      b1 = ⟨.Empty, .Empty, .Empty, .Empty, .X, .Empty, .Empty, .Empty, .Empty⟩ ∧
        readCell b1 move = .ok Piece.Empty :=
  computer_move_on_empty_cell _
    (Reach.human emptyBoard _ 4 Reach.start (by rw [checkWin_eq]; rfl) rfl rfl)
    (by rw [checkWin_eq]; rfl)


/-! ## The blocking scenario and the initial board -/

/-- C18 (as stated, refuted): on `[X,X,Empty, O,O,Empty, Empty,Empty,Empty]`
cell 5 is an `Empty` cell other than 2 and its trial score is `+1`, not `-1`:
`O` placed there completes the row 3-4-5, so `minmax(X, 0)` returns at once
with the score of `OWin`. -/
theorem blockBoard_trial_five_is_win :
    readCell blockBoard 5 = .ok Piece.Empty ∧
    checkWin (blockBoard.set 5 Piece.O) = .ok WinState.OWin ∧
    minmax 5 Piece.X 0 (blockBoard.set 5 Piece.O) = .ok (1, blockBoard.set 5 Piece.O) ∧
    ¬ (∀ i : Fin 9, i ≠ 2 → blockBoard.get i = Piece.Empty →
        minmax 5 Piece.X 0 (blockBoard.set i Piece.O) = .ok (-1, blockBoard.set i Piece.O)) := by
  have h5 : minmax 5 Piece.X 0 (blockBoard.set 5 Piece.O) =
      .ok (1, blockBoard.set 5 Piece.O) := by
    rw [trial_eq blockBoard 5 5 (by decide) rfl, V_blockBoard_five]
  refine ⟨rfl, by rw [checkWin_eq]; rfl, h5, fun h => ?_⟩
  have h6 := h 5 (by decide) rfl
  rw [h5] at h6
  simp at h6

/-- C18 (amended): on `[X,X,Empty, O,O,Empty, Empty,Empty,Empty]` the `Empty`
cells are 2, 5, 6, 7 and 8; the cells 6, 7 and 8 have trial score `-1`, cell 5
has trial score `+1` and cell 2 has trial score `+1`, which is `0` or better
(the trial score of a cell is what `minmax(X, 0)` returns on the board with
`O` placed there). -/
theorem blockBoard_trial_scores (fuel : Nat) (hf : 5 ≤ fuel) :
    (∀ i : Fin 9, blockBoard.get i = Piece.Empty ↔ i = 2 ∨ i = 5 ∨ i = 6 ∨ i = 7 ∨ i = 8) ∧
    (∃ s, minmax fuel Piece.X 0 (blockBoard.set 2 Piece.O) = .ok (s, blockBoard.set 2 Piece.O) ∧
      0 ≤ s ∧ s = 1) ∧
    minmax fuel Piece.X 0 (blockBoard.set 5 Piece.O) = .ok (1, blockBoard.set 5 Piece.O) ∧
    minmax fuel Piece.X 0 (blockBoard.set 6 Piece.O) = .ok (-1, blockBoard.set 6 Piece.O) ∧
    minmax fuel Piece.X 0 (blockBoard.set 7 Piece.O) = .ok (-1, blockBoard.set 7 Piece.O) ∧
    minmax fuel Piece.X 0 (blockBoard.set 8 Piece.O) = .ok (-1, blockBoard.set 8 Piece.O) := by
  have hc : blockBoard.countEmpty ≤ fuel := le_trans (by decide) hf
  refine ⟨by decide, ⟨1, ?_, by decide, rfl⟩, ?_, ?_, ?_, ?_⟩
  · rw [trial_eq blockBoard 2 fuel hc rfl, V_blockBoard_two]
  · rw [trial_eq blockBoard 5 fuel hc rfl, V_blockBoard_five]
  · rw [trial_eq blockBoard 6 fuel hc rfl, V_blockBoard_six]
  · rw [trial_eq blockBoard 7 fuel hc rfl, V_blockBoard_seven]
  · rw [trial_eq blockBoard 8 fuel hc rfl, V_blockBoard_eight]

theorem blockBoard_trial_scores_witness :
    minmax 5 Piece.X 0 (blockBoard.set 5 Piece.O) = .ok (1, blockBoard.set 5 Piece.O) ∧
    minmax 5 Piece.X 0 (blockBoard.set 6 Piece.O) = .ok (-1, blockBoard.set 6 Piece.O) :=
  ⟨(blockBoard_trial_scores 5 (by decide)).2.2.1, (blockBoard_trial_scores 5 (by decide)).2.2.2.1⟩

/-- C19 (the code at the failing input): the initial value of the global,
`Piece board[9] = { Empty }`, has `Empty` in cell 0 only; the cells 1 to 8 are
zero-initialised and hold the enumerator of value `0`, which is `X`.  The
board is all `Empty` only after `resetGame()`. -/
theorem initialBoard_cells :
    Piece.value zeroPiece = 0 ∧
    initialBoard = ⟨.Empty, .X, .X, .X, .X, .X, .X, .X, .X⟩ ∧
    readCell initialBoard 1 = .ok Piece.X ∧
    ¬ (∀ i : Fin 9, initialBoard.get i = Piece.Empty) ∧
    resetGame initialBoard = .ok emptyBoard := by
  refine ⟨rfl, rfl, rfl, fun h => ?_, resetGame_eq _⟩
  exact absurd (h 1) (by decide)

/-- C20: the engine does not prefer the faster win: on
`[X,X,Empty, O,O,Empty, Empty,Empty,Empty]` cell 5 is `Empty` and `O` placed
there completes a line (`checkWin` gives `OWin`), yet `getComputerMove()`
returns cell 2, where `O` completes no line (`checkWin` gives `NotFinished`);
both cells have trial score `+1`. -/
theorem no_preference_for_faster_win (fuel : Nat) (hf : 5 ≤ fuel) :
    readCell blockBoard 5 = .ok Piece.Empty ∧
    checkWin (blockBoard.set 5 Piece.O) = .ok WinState.OWin ∧
    getComputerMove fuel blockBoard = .ok (2, blockBoard) ∧
    readCell blockBoard 2 = .ok Piece.Empty ∧
    checkWin (blockBoard.set 2 Piece.O) = .ok WinState.NotFinished ∧
    minmax fuel Piece.X 0 (blockBoard.set 2 Piece.O) = .ok (1, blockBoard.set 2 Piece.O) ∧
    minmax fuel Piece.X 0 (blockBoard.set 5 Piece.O) = .ok (1, blockBoard.set 5 Piece.O) := by
  have hc : blockBoard.countEmpty ≤ fuel := le_trans (by decide) hf
  refine ⟨rfl, by rw [checkWin_eq]; rfl, ?_, rfl, by rw [checkWin_eq]; rfl, ?_, ?_⟩
  · rw [getComputerMove_eq fuel blockBoard hc, bestMove_blockBoard]
  · rw [trial_eq blockBoard 2 fuel hc rfl, V_blockBoard_two]
  · rw [trial_eq blockBoard 5 fuel hc rfl, V_blockBoard_five]

theorem no_preference_for_faster_win_witness :
    checkWin (blockBoard.set 5 Piece.O) = .ok WinState.OWin ∧
    getComputerMove 5 blockBoard = .ok (2, blockBoard) ∧
    checkWin (blockBoard.set 2 Piece.O) = .ok WinState.NotFinished :=
  ⟨(no_preference_for_faster_win 5 (by decide)).2.1,
   (no_preference_for_faster_win 5 (by decide)).2.2.1,
   (no_preference_for_faster_win 5 (by decide)).2.2.2.2.1⟩

end TicTacToe
